import Mathlib

/-!
# Verification of the Next-Best-Action engine's conversation pipeline

A shallow embedding of the conversation-reconstruction pipeline
(`pipeline/data_pipeline.py`), the tagging/enrichment stage
(`pipeline/tagging.py`) and the recommendation dispatcher
(`pipeline/nba.py`), together with theorems settling the specification
claims about thread reconstruction, incremental reprocessing,
deduplication, customer-pattern aggregation and collaborator-failure
defaults.

Modelling conventions:
* CSV rows and JSON records become Lean structures; a pandas `NaN` in a
  string column is the empty string (the code calls `fillna('')` on the
  parent/response reference columns before any use).
* `created_at` timestamps are modelled as a `Nat` sort key plus a
  `created_ok` flag meaning "`datetime.strptime` succeeds on this value";
  the code sorts a history only when every timestamp parses (CPython
  computes all sort keys before reordering, so a failing key leaves the
  list unchanged, matching the `try/except: pass` around `.sort`).
* Python `dict`s keyed by id become association-style lists in insertion
  order, with dict assignment modelled as update-in-place-or-append.
* Python `set`s of author ids, from which the code takes `list(s)[0]`,
  are modelled as first-encounter-ordered duplicate-free lists with the
  head taken; CPython's set iteration order is hash-dependent, so the
  model fixes the deterministic first-encountered choice.
* The recursive parent walk `find_conversation_root` receives fuel
  `rows.length + 1`; on acyclic data (all data in this development) the
  fuel is never exhausted, while exhaustion models CPython's
  `RecursionError` on a cyclic parent chain.
* LLM collaborator calls are request/response oracles: each call site
  takes an `Except Unit String` (or a function producing one) standing
  for "the collaborator returned this content" / "the collaborator
  raised".
-/

namespace NBAEngine

/-! ## Data model (src/pipeline/data_pipeline.py) -/

/-- One CSV row of the Twitter customer-support dump, after `pd.read_csv`
with the id columns read as strings.  Empty string models a missing
(`NaN`) reference. -/
structure Row where
  tweet_id : String
  in_response_to : String
  response_tweet_id : String
  author_id : String
  inbound : Bool
  text : String
  created_at : Nat
  created_ok : Bool
deriving Repr, DecidableEq

/-- One entry of a conversation's `chat_history`: the nested
`{'response_type': ..., 'response': {'tweet_id', 'text', 'created_at'}}`
dictionary, with the transient `customer_id` key modelled as an
`Option` (the key is deleted at the end of each ingestion run). -/
structure Msg where
  response_type : String
  tweet_id : String
  text : String
  created_at : Nat
  created_ok : Bool
  customer_id : Option String
deriving Repr, DecidableEq

/-- A conversation record as persisted in the raw conversation store
(`twitter_conversations_raw.json`). -/
@[ext]
structure Conv where
  primary_tweet_id : String
  primary_tweet : String
  tail_id : String
  customer_id : String
  company_id : String
  chat_history : List Msg
  processed : Bool
deriving Repr, DecidableEq

/-! ## Ingestion: convert_twitter_csv_to_json (data_pipeline.py lines 6-299) -/

/-- Python's `str.strip()`: drop leading and trailing whitespace. -/
def pyStrip (s : String) : String :=
  String.mk
    (((s.data.dropWhile (fun c => c.isWhitespace)).reverse.dropWhile
      (fun c => c.isWhitespace)).reverse)

/-- Column cleaning, lines 49-52: strip whitespace from the id fields
(`fillna('')` is the empty-string convention of `Row`). -/
def trimRow (r : Row) : Row :=
  { r with
    tweet_id := pyStrip r.tweet_id
    in_response_to := pyStrip r.in_response_to
    response_tweet_id := pyStrip r.response_tweet_id }

/-- `df.drop_duplicates(subset=['tweet_id'], keep='first')`, line 57. -/
def dedupRows : List Row → List String → List Row
  | [], _ => []
  | r :: rs, seen =>
    if r.tweet_id ∈ seen then dedupRows rs seen
    else r :: dedupRows rs (r.tweet_id :: seen)

/-- Lines 41-64: truncate to the first 4000 rows, strip the id columns,
drop duplicate tweet ids keeping the first, drop rows with an empty
tweet id. -/
def cleanRows (rows : List Row) : List Row :=
  (dedupRows ((rows.take 4000).map trimRow) []).filter
    (fun r => r.tweet_id ≠ "")

/-- `find_conversation_root`, lines 67-81: walk `in_response_to`
references until a row with an empty reference is reached (that row's id
is the root), returning `none` for an empty id or a reference to a row
absent from the cleaned frame.  The fuel argument models CPython's
recursion limit; callers pass `rows.length + 1`, which acyclic data
never exhausts. -/
def find_conversation_root (rows : List Row) : Nat → String → Option String
  | 0, _ => none
  | fuel + 1, tid =>
    if tid = "" then none
    else
      match rows.find? (fun r => r.tweet_id = tid) with
      | none => none
      | some r =>
        if r.in_response_to = "" then some tid
        else find_conversation_root rows fuel r.in_response_to

/-- Root resolution with the standard fuel. -/
def fcr (rows : List Row) (tid : String) : Option String :=
  find_conversation_root rows (rows.length + 1) tid

/-- The message entry built at lines 144-159 / 174-188: inbound rows are
customer responses and carry the transient `customer_id` key. -/
def mkMsg (r : Row) : Msg :=
  { response_type := if r.inbound then "Customer" else "Company"
    tweet_id := r.tweet_id
    text := r.text
    created_at := r.created_at
    created_ok := r.created_ok
    customer_id := if r.inbound then some r.author_id else none }

/-- A fresh conversation record, lines 112-120. -/
def freshConv (rootId text : String) : Conv :=
  { primary_tweet_id := rootId
    primary_tweet := text
    tail_id := rootId
    customer_id := ""
    company_id := ""
    chat_history := []
    processed := false }

/-- All message ids appearing in some conversation's `chat_history` of a
store — the `existing_tweet_ids` set built at lines 26-29. -/
def allHistIds (store : List Conv) : List String :=
  store.flatMap (fun c => c.chat_history.map (fun m => m.tweet_id))

/-- Python dict assignment `d[k] = v` on a dict keyed by
`primary_tweet_id`: replace in place if the key exists, else append. -/
def upsertConv (acc : List Conv) (c : Conv) : List Conv :=
  if acc.any (fun x => x.primary_tweet_id = c.primary_tweet_id) then
    acc.map (fun x => if x.primary_tweet_id = c.primary_tweet_id then c else x)
  else acc ++ [c]

/-- Loading the existing store into the `existing_convo` dict,
lines 26-27. -/
def loadStore (convs : List Conv) : List Conv :=
  convs.foldl upsertConv []

/-- Replace the first conversation satisfying `p` (the `break` at
line 101/137 keeps only the first tail match). -/
def updateFirst (p : Conv → Bool) (f : Conv → Conv) : List Conv → List Conv
  | [] => []
  | c :: cs => if p c then f c :: cs else c :: updateFirst p f cs

/-- Phase 1 (lines 86-120), one row: skip already-seen ids; resolve the
root; if an existing conversation's tail equals the root this is a
continuation (handled in phase 2); else open a new conversation for the
root unless one is already open. -/
def step1 (rows : List Row) (store : List Conv) (seen : List String)
    (acc : List Conv) (r : Row) : List Conv :=
  if r.tweet_id ∈ seen then acc
  else
    match fcr rows r.tweet_id with
    | none => acc
    | some R =>
      if store.any (fun c => c.tail_id = R) then acc
      else if acc.any (fun c => c.primary_tweet_id = R) then acc
      else
        match rows.find? (fun row => row.tweet_id = R) with
        | none => acc
        | some rootRow => acc ++ [freshConv R rootRow.text]

/-- The mutable state threaded through phase 2: the existing-store dict,
the new-conversation dict, and the `existing_tweet_ids` set. -/
structure BuildState where
  ex : List Conv
  nw : List Conv
  seen : List String
deriving Repr, DecidableEq

/-- Phase 2 (lines 123-194), one row: skip seen ids; if the row's root
equals some existing conversation's tail, append the message there
(deduplicated against that history), record the id as seen and mark the
conversation unprocessed; else if the root opened a new conversation,
append there (deduplicated, `processed` already `false`). -/
def step2 (rows : List Row) (st : BuildState) (r : Row) : BuildState :=
  if r.tweet_id ∈ st.seen then st
  else
    match fcr rows r.tweet_id with
    | none => st
    | some R =>
      match st.ex.find? (fun c => c.tail_id = R) with
      | some c =>
        if r.tweet_id ∈ c.chat_history.map (fun m => m.tweet_id) then st
        else
          { st with
            ex := updateFirst (fun c' => c'.tail_id = R)
              (fun c' => { c' with
                chat_history := c'.chat_history ++ [mkMsg r]
                processed := false }) st.ex
            seen := st.seen ++ [r.tweet_id] }
      | none =>
        match st.nw.find? (fun c => c.primary_tweet_id = R) with
        | some c =>
          if r.tweet_id ∈ c.chat_history.map (fun m => m.tweet_id) then st
          else
            { st with
              nw := updateFirst (fun c' => c'.primary_tweet_id = R)
                (fun c' => { c' with
                  chat_history := c'.chat_history ++ [mkMsg r] }) st.nw }
        | none => st

/-- Chronological order on history entries (the `datetime.strptime` sort
key of lines 200-202 compared as instants). -/
def msgLE (a b : Msg) : Prop := a.created_at ≤ b.created_at

instance : DecidableRel msgLE := fun a b => Nat.decLe a.created_at b.created_at

instance : IsTotal Msg msgLE := ⟨fun a b => Nat.le_total a.created_at b.created_at⟩

instance : IsTrans Msg msgLE := ⟨fun _ _ _ h h' => Nat.le_trans h h'⟩

/-- The guarded history sort: CPython computes every sort key before
reordering, so if any `created_at` fails to parse the `except: pass`
leaves the history unchanged.  Python's sort is stable, and the unique
stable sort is insertion sort. -/
def sortHistory (l : List Msg) : List Msg :=
  if l.all (fun m => m.created_ok) then l.insertionSort msgLE else l

/-- The `customer_ids` set of lines 212-217 / 252-257, as a
first-encounter-ordered duplicate-free list: customer ids carried by
customer-typed entries that still have the transient key. -/
def customerIdsList (hist : List Msg) : List String :=
  hist.foldl
    (fun acc m =>
      match m.customer_id with
      | some cid =>
        if m.response_type = "Customer" ∧ cid ∉ acc then acc ++ [cid] else acc
      | none => acc)
    []

/-- The `company_ids` set of lines 218-225 / 258-265: author ids looked
up in the cleaned frame for company-typed entries, skipping empty
authors. -/
def companyIdsList (rows : List Row) (hist : List Msg) : List String :=
  hist.foldl
    (fun acc m =>
      if m.response_type = "Company" then
        match rows.find? (fun r => r.tweet_id = m.tweet_id) with
        | some r =>
          if r.author_id ≠ "" ∧ r.author_id ∉ acc then acc ++ [r.author_id]
          else acc
        | none => acc
      else acc)
    []

/-- Deleting the transient `customer_id` keys, lines 230-232 / 274-276. -/
def eraseCustKeys (hist : List Msg) : List Msg :=
  hist.map (fun m => { m with customer_id := none })

/-- Finalization of a new conversation (lines 198-232): best-effort sort,
tail from the last entry (root id if the history is empty), participant
ids from the history (empty string when none found), transient keys
stripped. -/
def finalizeNew (rows : List Row) (c : Conv) : Conv :=
  let hist := sortHistory c.chat_history
  let custs := customerIdsList hist
  let comps := companyIdsList rows hist
  { c with
    chat_history := eraseCustKeys hist
    tail_id :=
      match hist.getLast? with
      | some m => m.tweet_id
      | none => c.primary_tweet_id
    customer_id := custs.headD ""
    company_id := comps.headD "" }

/-- Finalization of an existing conversation (lines 236-276): as for new
conversations, except the tail and participant ids are only overwritten
when the recomputation finds something. -/
def finalizeExisting (rows : List Row) (c : Conv) : Conv :=
  let hist := sortHistory c.chat_history
  let custs := customerIdsList hist
  let comps := companyIdsList rows hist
  { c with
    chat_history := eraseCustKeys hist
    tail_id :=
      match hist.getLast? with
      | some m => m.tweet_id
      | none => c.tail_id
    customer_id := if custs.isEmpty then c.customer_id else custs.headD ""
    company_id := if comps.isEmpty then c.company_id else comps.headD "" }

/-- The whole of `convert_twitter_csv_to_json` on in-memory data: clean
the rows, load the store, identify roots (phase 1), build threads
(phase 2), finalize, and return existing followed by new conversations
(line 279). -/
def convert_twitter_csv_to_json (rawRows : List Row) (rawStore : List Conv) :
    List Conv :=
  let rows := cleanRows rawRows
  let ex0 := loadStore rawStore
  let seen0 := allHistIds rawStore
  let nw0 := rows.foldl (step1 rows ex0 seen0) []
  let st := rows.foldl (step2 rows) ⟨ex0, nw0, seen0⟩
  st.ex.map (finalizeExisting rows) ++ st.nw.map (finalizeNew rows)

/-! ## Enrichment: tagging.py -/

/-- A tagged conversation record as written to
`twitter_conversations_tagged.json`.  `resolution_status = none` models
the JSON `null` that `tag_conversations` stores when
`determine_resolution_status_llm` returns `None`. -/
structure TConv extends Conv where
  nature_of_support : String
  sentiment : String
  resolved : Bool
  resolution_status : Option String
  most_frequent_sentiment : String
  most_frequent_support_type : String
deriving Repr, DecidableEq

/-- Strip a leading enumeration marker — the
`re.sub(r'^\d+\.\s*', '', s)` of tagging.py line 108: one or more
digits, a dot, then any whitespace, removed only when the whole pattern
matches at the start. -/
def stripEnumMarker (s : String) : String :=
  let digits := s.data.takeWhile (fun c => c.isDigit)
  let rest := s.data.dropWhile (fun c => c.isDigit)
  match digits, rest with
  | _ :: _, c :: tail =>
    if c = Char.ofNat 46 then String.mk (tail.dropWhile (fun ch => ch.isWhitespace))
    else s
  | _, _ => s

/-- `classify_support_nature_llm` (tagging.py lines 11-129): default
category when no API key is configured; otherwise invoke the
collaborator, strip/normalise its reply (an unexpected label is only
logged), and fall back to the default when the call raises. -/
def classify_support_nature_llm (api_key : Option String)
    (collab : Except Unit String) : String :=
  match api_key with
  | none => "Technical Issue (Simple / Minor)"
  | some _ =>
    match collab with
    | .ok response => pyStrip (stripEnumMarker (pyStrip response))
    | .error _ => "Technical Issue (Simple / Minor)"

/-- `analyze_sentiment_llm` (tagging.py lines 132-180): default
`"Neutral"` when no API key is configured or the collaborator raises;
otherwise the stripped reply. -/
def analyze_sentiment_llm (api_key : Option String)
    (collab : Except Unit String) : String :=
  match api_key with
  | none => "Neutral"
  | some _ =>
    match collab with
    | .ok response => pyStrip response
    | .error _ => "Neutral"

/-- `determine_resolution_status_llm` (tagging.py lines 183-248):
`"waiting_for_company"` for an empty history; otherwise the stripped
collaborator reply, and `None` when the call raises — the missing-key
branch only warns, then the collaborator is still invoked (and raises),
so the function falls off the end of its `except` clause. -/
def determine_resolution_status_llm (collab : Except Unit String)
    (chat_history : List Msg) : Option String :=
  if chat_history.isEmpty then some "waiting_for_company"
  else
    match collab with
    | .ok response => some (pyStrip response)
    | .error _ => none

/-- The projection of a conversation that
`calculate_customer_patterns` reads: `conv.get('customer_id')` (empty
string for missing or empty — both falsy), and the optional
`sentiment` / `nature_of_support` keys. -/
structure PConv where
  customer_id : String
  sentiment : Option String
  nature_of_support : Option String
deriving Repr, DecidableEq

/-- One step of the grouping dict construction (tagging.py lines
263-268): skip a falsy customer id, append to the existing group, or
open a new one. -/
def gStep (acc : List (String × List PConv)) (c : PConv) :
    List (String × List PConv) :=
  if c.customer_id = "" then acc
  else if acc.any (fun p => p.1 = c.customer_id) then
    acc.map (fun p =>
      if p.1 = c.customer_id then (p.1, p.2 ++ [c]) else p)
  else acc ++ [(c.customer_id, [c])]

/-- Grouping by customer id (tagging.py lines 262-268): a dict in key
insertion order, each group in list order, conversations with a falsy
customer id excluded. -/
def groupByCustomer (convs : List PConv) : List (String × List PConv) :=
  convs.foldl gStep []

/-- The distinct values of a list in first-encounter order —
`Counter`'s keys. -/
def firstUniq : List String → List String
  | [] => []
  | x :: xs => x :: firstUniq (xs.filter (fun y => y ≠ x))
termination_by l => l.length
decreasing_by
  exact Nat.lt_succ_of_le (List.length_filter_le _ _)

/-- Pick the maximum-count element from the candidate list `u`, earlier
candidates winning ties. -/
def mcAux (l : List String) : List String → Option String
  | [] => none
  | x :: xs =>
    match mcAux l xs with
    | none => some x
    | some b => if l.count b > l.count x then some b else some x

/-- `Counter(l).most_common(1)[0][0]` when `l` is non-empty:
`most_common` stably sorts the counter's first-insertion-ordered items
by descending count, so the winner is the maximum-count value whose
first occurrence is earliest. -/
def most_common1 (l : List String) : Option String :=
  mcAux l (firstUniq l)

/-- `calculate_customer_patterns` (tagging.py lines 251-290): per
customer, the most frequent sentiment and most frequent support type of
that customer's conversations, with `"Neutral"` /
`"Technical Issue (Simple / Minor)"` as per-conversation defaults for
missing tags. -/
def calculate_customer_patterns (convs : List PConv) :
    List (String × String × String) :=
  (groupByCustomer convs).map
    (fun g =>
      let sentiments := g.2.map (fun c => c.sentiment.getD "Neutral")
      let support_types := g.2.map
        (fun c => c.nature_of_support.getD "Technical Issue (Simple / Minor)")
      (g.1,
        (most_common1 sentiments).getD "Neutral",
        (most_common1 support_types).getD "Technical Issue (Simple / Minor)"))

/-- The per-conversation collaborator outcomes for one tagging run: the
three independent LLM calls made for a conversation. -/
structure Oracles where
  fc : Conv → Except Unit String
  fs : Conv → Except Unit String
  fr : Conv → Except Unit String

/-- The tagging loop body (tagging.py lines 313-328): attach category,
sentiment, and resolution status; `resolved` is the Python comparison
`resolved == "resolved"` (false for `None`). -/
def tag_one (api_key : Option String) (o : Oracles) (c : Conv) : TConv :=
  let res := determine_resolution_status_llm (o.fr c) c.chat_history
  { toConv := c
    nature_of_support := classify_support_nature_llm api_key (o.fc c)
    sentiment := analyze_sentiment_llm api_key (o.fs c)
    resolved := res = some "resolved"
    resolution_status := res
    most_frequent_sentiment := ""
    most_frequent_support_type := "" }

/-- The aggregator's view of a freshly tagged conversation (all tag
keys present). -/
def toPConv (t : TConv) : PConv :=
  { customer_id := t.customer_id
    sentiment := some t.sentiment
    nature_of_support := some t.nature_of_support }

/-- Attaching customer patterns (tagging.py lines 330-343): pattern
lookup for truthy customer ids, else the conversation's own tags (the
`get` defaults are dead since tagging just set both keys). -/
def applyPatterns (tagged : List TConv) : List TConv :=
  let pats := calculate_customer_patterns (tagged.map toPConv)
  tagged.map
    (fun t =>
      match
        (if t.customer_id ≠ "" then pats.find? (fun p => p.1 = t.customer_id)
         else none) with
      | some p =>
        { t with
          most_frequent_sentiment := p.2.1
          most_frequent_support_type := p.2.2 }
      | none =>
        { t with
          most_frequent_sentiment := t.sentiment
          most_frequent_support_type := t.nature_of_support })

/-- `tag_conversations` (tagging.py lines 293-398), the list it
returns: the unprocessed conversations, tagged and annotated with
customer patterns. -/
def tag_conversations (api_key : Option String) (o : Oracles)
    (convs : List Conv) : List TConv :=
  let unprocessed := convs.filter (fun c => !c.processed)
  applyPatterns (unprocessed.map (tag_one api_key o))

/-- Dict assignment on the tagged store keyed by `primary_tweet_id`
(tagging.py lines 369-372). -/
def upsertTConv (acc : List TConv) (c : TConv) : List TConv :=
  if acc.any (fun x => x.primary_tweet_id = c.primary_tweet_id) then
    acc.map (fun x => if x.primary_tweet_id = c.primary_tweet_id then c else x)
  else acc ++ [c]

/-- The tagged-store persistence (tagging.py lines 360-377): index the
existing file by `primary_tweet_id`, then upsert each newly tagged
conversation (reset to `processed = False`); the combined values are
written back. -/
def mergeTagged (existing : List TConv) (unprocessed : List TConv) :
    List TConv :=
  unprocessed.foldl
    (fun acc c => upsertTConv acc { c with processed := false })
    (existing.foldl upsertTConv [])

/-- The raw-store update at the end of `tag_conversations`
(tagging.py lines 381-396): every conversation whose id was tagged in
this run is marked processed. -/
def markProcessedRaw (convs : List Conv) : List Conv :=
  let tagged_ids := (convs.filter (fun c => !c.processed)).map
    (fun c => c.primary_tweet_id)
  convs.map
    (fun c =>
      if c.primary_tweet_id ∈ tagged_ids then { c with processed := true }
      else c)

/-! ## Recommendation dispatcher: nba.py -/

/-- The feature bundle built by `NBA.extract_features`
(nba.py lines 24-65). -/
structure Features where
  customer_id : String
  primary_tweet : String
  nature_of_support : String
  sentiment : String
  most_frequent_sentiment : String
  most_frequent_support_type : String
  conversation_length : Nat
  chat_history : List Msg
  resolved : Bool
  resolution_status : Option String
  customer_has_reply : Bool
deriving Repr, DecidableEq

/-- `NBA.extract_features` on a tagged conversation.  The tagged store
always carries the `resolution_status` key (tagging writes it, possibly
as `null`), so the `.get` default `'waiting_for_company'` is never
taken; `customer_sentiment` is read from a key the tagged store never
has, so the `sentiment` feature is always the empty string. -/
def extract_features (c : TConv) : Features :=
  { customer_id := c.customer_id
    primary_tweet := c.primary_tweet
    nature_of_support := c.nature_of_support
    sentiment := ""
    most_frequent_sentiment := c.most_frequent_sentiment
    most_frequent_support_type := c.most_frequent_support_type
    conversation_length := c.chat_history.length
    chat_history := c.chat_history
    resolved := c.resolved
    resolution_status := c.resolution_status
    customer_has_reply :=
      (c.chat_history.filter (fun m => m.response_type = "Company")).length > 0 }

/-- A recommendation record. -/
structure Rec where
  customer_id : String
  channel : String
  send_time : String
  message : String
  reasoning : String
  issue_status : String
deriving Repr, DecidableEq

/-- `NBA.determine_next_best_action_llm` (nba.py lines 67-184): the
function returns the fixed default record unconditionally — the prompt
construction and LLM call after the `return` at lines 78-85 are
unreachable.  `now` is the formatted `datetime.now(timezone.utc)`. -/
def determine_next_best_action_llm (now : String) (f : Features) : Rec :=
  { customer_id := f.customer_id
    channel := "twitter_dm_reply"
    send_time := now
    message := "Thank you for reaching out. We\x27re here to help resolve your issue."
    reasoning := "Default recommendation - LLM not available"
    issue_status := "pending_customer_reply" }

/-- `NBA.process_conversations` (nba.py lines 186-233): keep unprocessed
conversations, extract features, keep those whose resolution status
equals `'waiting_for_company'`, emit one recommendation each, and mark
every loaded conversation processed in the store.  Returns the
recommendations and the updated store. -/
def process_conversations (now : String) (store : List TConv) :
    List Rec × List TConv :=
  let conversations := store.filter (fun c => !c.processed)
  let all_features := conversations.map extract_features
  let waiting := all_features.filter
    (fun f => f.resolution_status = some "waiting_for_company")
  let recommendations := waiting.map (determine_next_best_action_llm now)
  let processed_ids := conversations.map (fun c => c.primary_tweet_id)
  let updated := store.map
    (fun c =>
      if !c.processed && processed_ids.contains c.primary_tweet_id then
        { c with processed := true }
      else c)
  (recommendations, updated)

/-! ## Claim-side characterisations and concrete instances -/

/-- The ids of a chat history. -/
def msgIds (hist : List Msg) : List String :=
  hist.map (fun m => m.tweet_id)

/-- The conversations eligible for a recommendation: loaded as
unprocessed and waiting for the company. -/
def eligibleForNBA (store : List TConv) : List TConv :=
  store.filter
    (fun c => !c.processed && c.resolution_status == some "waiting_for_company")

/-- The spec's dominance notion (§4.3): a maximal-count element whose
first occurrence is earliest among maximal-count elements. -/
def SpecDominant (l : List String) (x : String) : Prop :=
  x ∈ l ∧ (∀ y ∈ l, l.count y ≤ l.count x) ∧
    ∀ y ∈ l, l.count y = l.count x → l.indexOf x ≤ l.indexOf y

instance (l : List String) (x : String) : Decidable (SpecDominant l x) :=
  inferInstanceAs (Decidable (_ ∈ _ ∧ _ ∧ _))

/-- All-failing collaborators: every LLM call raises. -/
def failingOracles : Oracles :=
  { fc := fun _ => .error ()
    fs := fun _ => .error ()
    fr := fun _ => .error () }

/-- A one-message unprocessed conversation used to witness the
collaborator-failure claims. -/
def wconv : Conv :=
  { primary_tweet_id := "r1"
    primary_tweet := "help"
    tail_id := "r1"
    customer_id := "alice"
    company_id := ""
    chat_history := [⟨"Customer", "r1", "help", 0, true, none⟩]
    processed := false }

/-- A settled two-message conversation (root `r1`, tail `t1`) as stored
after a completed run. -/
def c1conv : Conv :=
  { primary_tweet_id := "r1"
    primary_tweet := "hello"
    tail_id := "t1"
    customer_id := "alice"
    company_id := ""
    chat_history :=
      [⟨"Customer", "r1", "hello", 0, true, none⟩,
       ⟨"Customer", "t1", "still broken", 1, true, none⟩]
    processed := true }

/-- A new message whose parent is `c1conv`'s tail. -/
def c1row : Row := ⟨"m1", "t1", "", "alice", true, "any update?", 5, true⟩

/-- `c1conv`'s tail message repeated in the batch as a root row. -/
def c1tailRow : Row := ⟨"t1", "", "", "alice", true, "still broken", 1, true⟩

/-- A message whose parent reference resolves to no row in the batch. -/
def c2row : Row := ⟨"m1", "ghost", "", "alice", true, "help me", 5, true⟩

/-- Root message of the C3 scenario. -/
def c3rowA : Row := ⟨"r1", "", "", "alice", true, "it broke", 0, true⟩

/-- Company reply to `c3rowA`. -/
def c3rowB : Row := ⟨"t1", "r1", "", "support", false, "try this", 1, true⟩

/-- Later customer follow-up to `c3rowB`, arriving in the second run. -/
def c3rowC : Row := ⟨"m1", "t1", "", "alice", true, "did not work", 2, true⟩

/-- Tagged conversations of customer `x` with sentiments
Negative, Negative, Positive (the spec's §8.4 scenario). -/
def c6convs : List PConv :=
  [⟨"x", some "Negative", some "Billing or Refund Request"⟩,
   ⟨"x", some "Negative", some "Other"⟩,
   ⟨"x", some "Positive", some "Other"⟩]

/-- A store with one unsettled waiting-for-company conversation, for the
dispatcher witnesses. -/
def w8store : List TConv :=
  [{ toConv := wconv
     nature_of_support := "Other"
     sentiment := "Negative"
     resolved := false
     resolution_status := some "waiting_for_company"
     most_frequent_sentiment := "Negative"
     most_frequent_support_type := "Other" }]

/-- A tiny store and batch for the deduplication witness. -/
def c4store : List Conv := [c1conv]

/-! ## Helper lemmas -/

theorem applyPatterns_eq_map (tagged : List TConv) :
    applyPatterns tagged = tagged.map
      (fun t =>
        match
          (if t.customer_id ≠ "" then
            (calculate_customer_patterns (tagged.map toPConv)).find?
              (fun p => p.1 = t.customer_id)
           else none) with
        | some p =>
          { t with
            most_frequent_sentiment := p.2.1
            most_frequent_support_type := p.2.2 }
        | none =>
          { t with
            most_frequent_sentiment := t.sentiment
            most_frequent_support_type := t.nature_of_support }) := rfl

theorem patterns_step_toConv (pats : List (String × String × String))
    (t : TConv) :
    ((match
        (if t.customer_id ≠ "" then pats.find? (fun p => p.1 = t.customer_id)
         else none) with
      | some p =>
        { t with
          most_frequent_sentiment := p.2.1
          most_frequent_support_type := p.2.2 }
      | none =>
        { t with
          most_frequent_sentiment := t.sentiment
          most_frequent_support_type := t.nature_of_support }) : TConv).toConv
        = t.toConv ∧
    ((match
        (if t.customer_id ≠ "" then pats.find? (fun p => p.1 = t.customer_id)
         else none) with
      | some p =>
        { t with
          most_frequent_sentiment := p.2.1
          most_frequent_support_type := p.2.2 }
      | none =>
        { t with
          most_frequent_sentiment := t.sentiment
          most_frequent_support_type := t.nature_of_support }) : TConv).nature_of_support
        = t.nature_of_support ∧
    ((match
        (if t.customer_id ≠ "" then pats.find? (fun p => p.1 = t.customer_id)
         else none) with
      | some p =>
        { t with
          most_frequent_sentiment := p.2.1
          most_frequent_support_type := p.2.2 }
      | none =>
        { t with
          most_frequent_sentiment := t.sentiment
          most_frequent_support_type := t.nature_of_support }) : TConv).sentiment
        = t.sentiment ∧
    ((match
        (if t.customer_id ≠ "" then pats.find? (fun p => p.1 = t.customer_id)
         else none) with
      | some p =>
        { t with
          most_frequent_sentiment := p.2.1
          most_frequent_support_type := p.2.2 }
      | none =>
        { t with
          most_frequent_sentiment := t.sentiment
          most_frequent_support_type := t.nature_of_support }) : TConv).resolution_status
        = t.resolution_status ∧
    ((match
        (if t.customer_id ≠ "" then pats.find? (fun p => p.1 = t.customer_id)
         else none) with
      | some p =>
        { t with
          most_frequent_sentiment := p.2.1
          most_frequent_support_type := p.2.2 }
      | none =>
        { t with
          most_frequent_sentiment := t.sentiment
          most_frequent_support_type := t.nature_of_support }) : TConv).resolved
        = t.resolved := by
  cases h : (if t.customer_id ≠ "" then pats.find? (fun p => p.1 = t.customer_id)
      else none) <;> simp [h]

theorem tag_conversations_length (api : Option String) (o : Oracles)
    (convs : List Conv) :
    (tag_conversations api o convs).length
      = (convs.filter (fun c => !c.processed)).length := by
  simp [tag_conversations, applyPatterns]

theorem tag_mem (api : Option String) (o : Oracles) {convs : List Conv}
    {c : Conv} (hc : c ∈ convs) (hp : c.processed = false) :
    ∃ t ∈ tag_conversations api o convs,
      t.toConv = c ∧
      t.nature_of_support = classify_support_nature_llm api (o.fc c) ∧
      t.sentiment = analyze_sentiment_llm api (o.fs c) ∧
      t.resolution_status
        = determine_resolution_status_llm (o.fr c) c.chat_history ∧
      t.resolved
        = decide (determine_resolution_status_llm (o.fr c) c.chat_history
            = some "resolved") := by
  have hcf : c ∈ convs.filter (fun c => !c.processed) := by
    simp [List.mem_filter, hc, hp]
  have hmem0 : tag_one api o c ∈ (convs.filter (fun c => !c.processed)).map
      (tag_one api o) := List.mem_map_of_mem _ hcf
  rw [tag_conversations, applyPatterns_eq_map]
  refine ⟨_, List.mem_map_of_mem _ hmem0, ?_⟩
  have h := patterns_step_toConv
    (calculate_customer_patterns
      (((convs.filter (fun c => !c.processed)).map (tag_one api o)).map toPConv))
    (tag_one api o c)
  refine ⟨h.1, ?_⟩
  rw [h.2.1, h.2.2.1, h.2.2.2.1, h.2.2.2.2]
  simp [tag_one]

theorem upsertTConv_keys (acc : List TConv) (c : TConv)
    (h : (acc.map (fun x => x.primary_tweet_id)).Nodup) :
    ((upsertTConv acc c).map (fun x => x.primary_tweet_id)).Nodup := by
  rw [upsertTConv]
  split
  · have hkeys :
        ((acc.map (fun x =>
          if x.primary_tweet_id = c.primary_tweet_id then c else x)).map
            (fun x => x.primary_tweet_id))
          = acc.map (fun x => x.primary_tweet_id) := by
      rw [List.map_map]
      refine List.map_congr_left (fun a _ => ?_)
      by_cases hx : a.primary_tweet_id = c.primary_tweet_id <;> simp [hx]
    rw [hkeys]
    exact h
  · next hany =>
    rw [List.map_append]
    simp only [List.map_cons, List.map_nil]
    rw [List.nodup_append]
    refine ⟨h, List.nodup_singleton _, ?_⟩
    intro a ha hb
    rw [List.mem_singleton] at hb
    subst hb
    rw [List.mem_map] at ha
    obtain ⟨x, hx, hxa⟩ := ha
    exact hany (List.any_eq_true.mpr ⟨x, hx, by simp [hxa]⟩)

theorem foldl_upsertTConv_keys (f : TConv → TConv) (l : List TConv) :
    ∀ acc : List TConv, (acc.map (fun x => x.primary_tweet_id)).Nodup →
      ((l.foldl (fun a c => upsertTConv a (f c)) acc).map
        (fun x => x.primary_tweet_id)).Nodup := by
  induction l with
  | nil => exact fun acc h => h
  | cons c cs ih =>
    intro acc h
    exact ih (upsertTConv acc (f c)) (upsertTConv_keys acc (f c) h)

theorem mem_upsertConv {acc : List Conv} {c d : Conv}
    (h : d ∈ upsertConv acc c) : d ∈ acc ∨ d = c := by
  rw [upsertConv] at h
  split at h
  · rw [List.mem_map] at h
    obtain ⟨x, hx, hxd⟩ := h
    by_cases hp : x.primary_tweet_id = c.primary_tweet_id
    · right; rw [if_pos hp] at hxd; exact hxd.symm
    · left; rw [if_neg hp] at hxd; exact hxd ▸ hx
  · rw [List.mem_append, List.mem_singleton] at h
    exact h

theorem mem_foldl_upsertConv {d : Conv} :
    ∀ (l : List Conv) (acc : List Conv),
      d ∈ l.foldl upsertConv acc → d ∈ acc ∨ d ∈ l := by
  intro l
  induction l with
  | nil => exact fun acc h => Or.inl h
  | cons c cs ih =>
    intro acc h
    rcases ih (upsertConv acc c) h with h' | h'
    · rcases mem_upsertConv h' with h'' | h''
      · exact Or.inl h''
      · exact Or.inr (h'' ▸ List.mem_cons_self c cs)
    · exact Or.inr (List.mem_cons_of_mem c h')

theorem mem_loadStore {s : List Conv} {d : Conv} (h : d ∈ loadStore s) :
    d ∈ s := by
  rcases mem_foldl_upsertConv s [] h with h' | h'
  · exact absurd h' (List.not_mem_nil d)
  · exact h'

theorem mem_allHistIds {store : List Conv} {x : String} :
    x ∈ allHistIds store ↔
      ∃ c ∈ store, x ∈ c.chat_history.map (fun m => m.tweet_id) := by
  rw [allHistIds, List.mem_flatMap]

theorem mem_foldl_step1 {rows : List Row} {store : List Conv}
    {seen : List String} {d : Conv} :
    ∀ (l : List Row) (acc : List Conv),
      d ∈ l.foldl (step1 rows store seen) acc →
        d ∈ acc ∨ d.chat_history = [] := by
  intro l
  induction l with
  | nil => exact fun acc h => Or.inl h
  | cons r rs ih =>
    intro acc h
    rcases ih (step1 rows store seen acc r) h with h' | h'
    · rw [step1] at h'
      split at h'
      · exact Or.inl h'
      · split at h'
        · exact Or.inl h'
        · split at h'
          · exact Or.inl h'
          · split at h'
            · exact Or.inl h'
            · split at h'
              · exact Or.inl h'
              · rw [List.mem_append, List.mem_singleton] at h'
                rcases h' with h' | h'
                · exact Or.inl h'
                · exact Or.inr (by rw [h']; rfl)
    · exact Or.inr h'

theorem allHistIds_updateFirst {p : Conv → Bool} {f : Conv → Conv}
    {t x : String}
    (hf : ∀ c, (f c).chat_history.map (fun m => m.tweet_id)
      = c.chat_history.map (fun m => m.tweet_id) ++ [t]) :
    ∀ l : List Conv, x ∈ allHistIds (updateFirst p f l) →
      x ∈ allHistIds l ∨ x = t := by
  intro l
  induction l with
  | nil => exact fun h => Or.inl h
  | cons c cs ih =>
    intro h
    rw [updateFirst] at h
    split at h
    · rw [allHistIds, List.flatMap_cons, List.mem_append] at h
      rcases h with h | h
      · rw [hf c, List.mem_append, List.mem_singleton] at h
        rcases h with h | h
        · exact Or.inl (by
            rw [allHistIds, List.flatMap_cons, List.mem_append]
            exact Or.inl h)
        · exact Or.inr h
      · exact Or.inl (by
          rw [allHistIds, List.flatMap_cons, List.mem_append]
          exact Or.inr h)
    · rw [allHistIds, List.flatMap_cons, List.mem_append] at h
      rcases h with h | h
      · exact Or.inl (by
          rw [allHistIds, List.flatMap_cons, List.mem_append]
          exact Or.inl h)
      · rcases ih h with h' | h'
        · exact Or.inl (by
            rw [allHistIds, List.flatMap_cons, List.mem_append]
            exact Or.inr h')
        · exact Or.inr h'

theorem mem_ids_step2 {rows : List Row} {st : BuildState} {r : Row}
    {x : String}
    (h : x ∈ allHistIds (step2 rows st r).ex
          ++ allHistIds (step2 rows st r).nw) :
    x ∈ allHistIds st.ex ++ allHistIds st.nw ∨
      (x = r.tweet_id ∧ fcr rows r.tweet_id ≠ none) := by
  rw [step2] at h
  split at h
  · exact Or.inl h
  · split at h
    · exact Or.inl h
    · next R hfcr =>
      split at h
      · next c hc =>
        split at h
        · exact Or.inl h
        · simp only [List.mem_append] at h
          rcases h with h | h
          · rcases allHistIds_updateFirst
              (t := r.tweet_id)
              (fun c' => by
                show (c'.chat_history ++ [mkMsg r]).map (fun m => m.tweet_id)
                    = _ ++ [r.tweet_id]
                rw [List.map_append]; rfl)
              st.ex h with h' | h'
            · exact Or.inl (List.mem_append.mpr (Or.inl h'))
            · exact Or.inr ⟨h', by rw [hfcr]; exact fun hh => Option.noConfusion hh⟩
          · exact Or.inl (List.mem_append.mpr (Or.inr h))
      · split at h
        · next c hc =>
          split at h
          · exact Or.inl h
          · simp only [List.mem_append] at h
            rcases h with h | h
            · exact Or.inl (List.mem_append.mpr (Or.inl h))
            · rcases allHistIds_updateFirst
                (t := r.tweet_id)
                (fun c' => by
                  show (c'.chat_history ++ [mkMsg r]).map (fun m => m.tweet_id)
                      = _ ++ [r.tweet_id]
                  rw [List.map_append]; rfl)
                st.nw h with h' | h'
              · exact Or.inl (List.mem_append.mpr (Or.inr h'))
              · exact Or.inr ⟨h', by rw [hfcr]; exact fun hh => Option.noConfusion hh⟩
        · exact Or.inl h

theorem mem_ids_foldl_step2 {rows : List Row} {x : String} :
    ∀ (l : List Row) (st : BuildState),
      x ∈ allHistIds (l.foldl (step2 rows) st).ex
          ++ allHistIds (l.foldl (step2 rows) st).nw →
        x ∈ allHistIds st.ex ++ allHistIds st.nw ∨
          ∃ r ∈ l, x = r.tweet_id ∧ fcr rows r.tweet_id ≠ none := by
  intro l
  induction l with
  | nil => exact fun st h => Or.inl h
  | cons r rs ih =>
    intro st h
    rcases ih (step2 rows st r) h with h' | ⟨r', hr', hx⟩
    · rcases mem_ids_step2 h' with h'' | h''
      · exact Or.inl h''
      · exact Or.inr ⟨r, List.mem_cons_self r rs, h''⟩
    · exact Or.inr ⟨r', List.mem_cons_of_mem r hr', hx⟩

theorem msgIds_eraseCustKeys (h : List Msg) :
    (eraseCustKeys h).map (fun m => m.tweet_id)
      = h.map (fun m => m.tweet_id) := by
  rw [eraseCustKeys, List.map_map]
  rfl

theorem mem_msgIds_sortHistory {h : List Msg} {x : String} :
    x ∈ (sortHistory h).map (fun m => m.tweet_id) ↔
      x ∈ h.map (fun m => m.tweet_id) := by
  rw [sortHistory]
  split
  · constructor <;> intro hx <;> rw [List.mem_map] at hx ⊢ <;>
      obtain ⟨m, hm, hmx⟩ := hx
    · exact ⟨m, (List.mem_insertionSort msgLE).mp hm, hmx⟩
    · exact ⟨m, (List.mem_insertionSort msgLE).mpr hm, hmx⟩
  · exact Iff.rfl

theorem mem_hist_finalizeExisting {rows : List Row} {c : Conv} {x : String}
    (h : x ∈ (finalizeExisting rows c).chat_history.map (fun m => m.tweet_id)) :
    x ∈ c.chat_history.map (fun m => m.tweet_id) := by
  rw [finalizeExisting] at h
  simp only at h
  rw [msgIds_eraseCustKeys] at h
  exact mem_msgIds_sortHistory.mp h

theorem mem_hist_finalizeNew {rows : List Row} {c : Conv} {x : String}
    (h : x ∈ (finalizeNew rows c).chat_history.map (fun m => m.tweet_id)) :
    x ∈ c.chat_history.map (fun m => m.tweet_id) := by
  rw [finalizeNew] at h
  simp only at h
  rw [msgIds_eraseCustKeys] at h
  exact mem_msgIds_sortHistory.mp h

/-- Master lemma: every message id in the output of an ingestion run is
either an id already stored or the id of a cleaned input row whose root
resolution succeeded. -/
theorem output_hist_ids {rawRows : List Row} {rawStore : List Conv}
    {x : String}
    (h : x ∈ allHistIds (convert_twitter_csv_to_json rawRows rawStore)) :
    x ∈ allHistIds rawStore ∨
      ∃ r ∈ cleanRows rawRows,
        x = r.tweet_id ∧ fcr (cleanRows rawRows) r.tweet_id ≠ none := by
  rw [convert_twitter_csv_to_json] at h
  rw [allHistIds, List.flatMap_append, List.mem_append] at h
  have hstep :
      x ∈ allHistIds ((cleanRows rawRows).foldl (step2 (cleanRows rawRows))
        ⟨loadStore rawStore,
          (cleanRows rawRows).foldl
            (step1 (cleanRows rawRows) (loadStore rawStore)
              (allHistIds rawStore)) [],
          allHistIds rawStore⟩).ex
        ++ allHistIds ((cleanRows rawRows).foldl (step2 (cleanRows rawRows))
        ⟨loadStore rawStore,
          (cleanRows rawRows).foldl
            (step1 (cleanRows rawRows) (loadStore rawStore)
              (allHistIds rawStore)) [],
          allHistIds rawStore⟩).nw := by
    rw [List.mem_append]
    rcases h with h | h
    · left
      rw [List.mem_flatMap] at h
      obtain ⟨c, hc, hx⟩ := h
      rw [List.mem_map] at hc
      obtain ⟨c0, hc0, hcc⟩ := hc
      exact mem_allHistIds.mpr ⟨c0, hc0, mem_hist_finalizeExisting (hcc ▸ hx)⟩
    · right
      rw [List.mem_flatMap] at h
      obtain ⟨c, hc, hx⟩ := h
      rw [List.mem_map] at hc
      obtain ⟨c0, hc0, hcc⟩ := hc
      exact mem_allHistIds.mpr ⟨c0, hc0, mem_hist_finalizeNew (hcc ▸ hx)⟩
  rcases mem_ids_foldl_step2 (cleanRows rawRows) _ hstep with hbase | ⟨r, hr, hx, hne⟩
  · rw [List.mem_append] at hbase
    rcases hbase with hbase | hbase
    · left
      obtain ⟨c, hc, hx⟩ := mem_allHistIds.mp hbase
      exact mem_allHistIds.mpr ⟨c, mem_loadStore hc, hx⟩
    · obtain ⟨c, hc, hx⟩ := mem_allHistIds.mp hbase
      rcases mem_foldl_step1 (cleanRows rawRows) [] hc with hc' | hc'
      · exact absurd hc' (List.not_mem_nil c)
      · rw [hc'] at hx
        exact absurd hx (List.not_mem_nil x)
  · exact Or.inr ⟨r, hr, hx, hx ▸ hne⟩

theorem mem_dedupRows {r : Row} :
    ∀ (l : List Row) (seen : List String), r ∈ dedupRows l seen → r ∈ l := by
  intro l
  induction l with
  | nil => exact fun seen h => h
  | cons a as ih =>
    intro seen h
    rw [dedupRows] at h
    split at h
    · exact List.mem_cons_of_mem a (ih _ h)
    · rcases List.mem_cons.mp h with h' | h'
      · exact h' ▸ List.mem_cons_self a as
      · exact List.mem_cons_of_mem a (ih _ h')

theorem mem_cleanRows {rawRows : List Row} {r : Row}
    (h : r ∈ cleanRows rawRows) :
    r.tweet_id ∈ (rawRows.take 4000).map (fun r0 => pyStrip r0.tweet_id) := by
  rw [cleanRows] at h
  have h1 := List.mem_of_mem_filter h
  have h2 := mem_dedupRows _ _ h1
  rw [List.mem_map] at h2
  obtain ⟨r0, hr0, hrr⟩ := h2
  rw [List.mem_map]
  exact ⟨r0, hr0, by rw [← hrr]; rfl⟩

theorem mem_firstUniq : ∀ (l : List String) (x : String),
    x ∈ firstUniq l ↔ x ∈ l
  | [], _ => by rw [firstUniq]
  | a :: as, x => by
    rw [firstUniq]
    constructor
    · intro h
      rcases List.mem_cons.mp h with h | h
      · exact h ▸ List.mem_cons_self a as
      · exact List.mem_cons_of_mem a
          (List.mem_of_mem_filter ((mem_firstUniq _ x).mp h))
    · intro h
      rcases List.mem_cons.mp h with h | h
      · exact h ▸ List.mem_cons_self a _
      · by_cases hxa : x = a
        · exact hxa ▸ List.mem_cons_self a _
        · exact List.mem_cons_of_mem a ((mem_firstUniq _ x).mpr
            (List.mem_filter.mpr ⟨h, by simp [hxa]⟩))
termination_by l _ => l.length
decreasing_by
  all_goals exact Nat.lt_succ_of_le (List.length_filter_le _ _)

theorem nodup_firstUniq : ∀ l : List String, (firstUniq l).Nodup
  | [] => by rw [firstUniq]; exact List.nodup_nil
  | a :: as => by
    rw [firstUniq]
    refine List.nodup_cons.mpr ⟨?_, nodup_firstUniq _⟩
    intro hmem
    have h := List.mem_filter.mp ((mem_firstUniq _ _).mp hmem)
    simp at h
termination_by l => l.length
decreasing_by
  exact Nat.lt_succ_of_le (List.length_filter_le _ _)

theorem indexOf_filter_lt {p : String → Bool} :
    ∀ (l : List String) (y z : String), p y = true → p z = true →
      y ∈ l → z ∈ l →
      (l.filter p).indexOf y < (l.filter p).indexOf z →
      l.indexOf y < l.indexOf z := by
  intro l
  induction l with
  | nil => intro y z _ _ hy; exact absurd hy (List.not_mem_nil y)
  | cons c cs ih =>
    intro y z hpy hpz hmy hmz hlt
    by_cases hyc : y = c
    · subst hyc
      by_cases hzy : z = y
      · subst hzy
        exact absurd hlt (lt_irrefl _)
      · rw [List.indexOf_cons_self, List.indexOf_cons_ne cs (fun h => hzy h.symm)]
        exact Nat.succ_pos _
    · by_cases hzc : z = c
      · subst hzc
        rw [List.filter_cons_of_pos hpz, List.indexOf_cons_self] at hlt
        exact absurd hlt (Nat.not_lt_zero _)
      · have hmy' : y ∈ cs := (List.mem_cons.mp hmy).resolve_left hyc
        have hmz' : z ∈ cs := (List.mem_cons.mp hmz).resolve_left hzc
        rw [List.indexOf_cons_ne cs (fun h => hyc h.symm),
          List.indexOf_cons_ne cs (fun h => hzc h.symm)]
        apply Nat.succ_lt_succ
        apply ih y z hpy hpz hmy' hmz'
        by_cases hpc : p c = true
        · rw [List.filter_cons_of_pos hpc,
            List.indexOf_cons_ne (cs.filter p) (fun h => hyc h.symm),
            List.indexOf_cons_ne (cs.filter p) (fun h => hzc h.symm)] at hlt
          exact Nat.lt_of_succ_lt_succ hlt
        · rw [List.filter_cons_of_neg (by simp [hpc])] at hlt
          exact hlt

theorem firstUniq_indexOf_lt :
    ∀ (l : List String) (a b : String), a ∈ firstUniq l → b ∈ firstUniq l →
      (firstUniq l).indexOf a < (firstUniq l).indexOf b →
      l.indexOf a < l.indexOf b
  | [], a, _ => by
    intro ha _ _
    rw [firstUniq] at ha
    exact absurd ha (List.not_mem_nil a)
  | x :: xs, a, b => by
    intro ha hb hlt
    rw [firstUniq] at ha hb hlt
    by_cases hax : a = x
    · subst hax
      by_cases hbx : b = a
      · subst hbx
        exact absurd hlt (lt_irrefl _)
      · rw [List.indexOf_cons_self, List.indexOf_cons_ne xs (fun h => hbx h.symm)]
        exact Nat.succ_pos _
    · have ha' : a ∈ firstUniq (xs.filter (fun y => y ≠ x)) :=
        (List.mem_cons.mp ha).resolve_left hax
      by_cases hbx : b = x
      · subst hbx
        rw [List.indexOf_cons_self] at hlt
        exact absurd hlt (Nat.not_lt_zero _)
      · have hb' : b ∈ firstUniq (xs.filter (fun y => y ≠ x)) :=
          (List.mem_cons.mp hb).resolve_left hbx
        rw [List.indexOf_cons_ne _ (fun h => hax h.symm),
          List.indexOf_cons_ne _ (fun h => hbx h.symm)] at hlt
        have hstep := firstUniq_indexOf_lt (xs.filter (fun y => y ≠ x)) a b
          ha' hb' (Nat.lt_of_succ_lt_succ hlt)
        have hamem := List.mem_filter.mp ((mem_firstUniq _ _).mp ha')
        have hbmem := List.mem_filter.mp ((mem_firstUniq _ _).mp hb')
        have htrans := indexOf_filter_lt xs a b hamem.2 hbmem.2
          hamem.1 hbmem.1 hstep
        rw [List.indexOf_cons_ne xs (fun h => hax h.symm),
          List.indexOf_cons_ne xs (fun h => hbx h.symm)]
        exact Nat.succ_lt_succ htrans
termination_by l _ _ => l.length
decreasing_by
  exact Nat.lt_succ_of_le (List.length_filter_le _ _)

theorem firstUniq_indexOf_le (l : List String) (a b : String)
    (ha : a ∈ firstUniq l) (hb : b ∈ firstUniq l)
    (hle : (firstUniq l).indexOf a ≤ (firstUniq l).indexOf b) :
    l.indexOf a ≤ l.indexOf b := by
  by_cases hab : a = b
  · subst hab
    exact le_refl _
  · have hne : (firstUniq l).indexOf a ≠ (firstUniq l).indexOf b :=
      fun h => hab ((List.indexOf_inj ha hb).mp h)
    exact le_of_lt (firstUniq_indexOf_lt l a b ha hb (lt_of_le_of_ne hle hne))

theorem mcAux_spec (l : List String) :
    ∀ u : List String, u ≠ [] → u.Nodup →
      ∃ b, mcAux l u = some b ∧ b ∈ u ∧
        (∀ y ∈ u, l.count y ≤ l.count b) ∧
        (∀ y ∈ u, l.count y = l.count b → u.indexOf b ≤ u.indexOf y) := by
  intro u
  induction u with
  | nil => intro h; exact absurd rfl h
  | cons x xs ih =>
    intro _ hnd
    rcases eq_or_ne xs [] with rfl | hxs
    · refine ⟨x, rfl, List.mem_singleton.mpr rfl, ?_, ?_⟩
      · intro y hy
        rw [List.mem_singleton.mp hy]
      · intro y hy _
        rw [List.mem_singleton.mp hy]
    · obtain ⟨b, hb, hbmem, hbmax, hbidx⟩ := ih hxs (List.Nodup.of_cons hnd)
      have hbx : b ≠ x := fun h =>
        (List.nodup_cons.mp hnd).1 (h ▸ hbmem)
      have heq : mcAux l (x :: xs)
          = if l.count b > l.count x then some b else some x := by
        rw [mcAux, hb]
      by_cases hgt : l.count b > l.count x
      · rw [heq, if_pos hgt]
        refine ⟨b, rfl, List.mem_cons_of_mem x hbmem, ?_, ?_⟩
        · intro y hy
          rcases List.mem_cons.mp hy with rfl | hy
          · exact le_of_lt hgt
          · exact hbmax y hy
        · intro y hy hcnt
          rcases List.mem_cons.mp hy with rfl | hy
          · rw [hcnt] at hgt
            exact absurd hgt (lt_irrefl _)
          · have hyx : y ≠ x := fun h =>
              (List.nodup_cons.mp hnd).1 (h ▸ hy)
            rw [List.indexOf_cons_ne xs (fun h => hbx h.symm),
              List.indexOf_cons_ne xs (fun h => hyx h.symm)]
            exact Nat.succ_le_succ (hbidx y hy hcnt)
      · rw [heq, if_neg hgt]
        refine ⟨x, rfl, List.mem_cons_self _ _, ?_, ?_⟩
        · intro y hy
          rcases List.mem_cons.mp hy with rfl | hy
          · exact le_refl _
          · exact le_trans (hbmax y hy) (not_lt.mp hgt)
        · intro y _ _
          rw [List.indexOf_cons_self]
          exact Nat.zero_le _

theorem most_common1_dominant (l : List String) (hne : l ≠ []) :
    ∃ b, most_common1 l = some b ∧ SpecDominant l b := by
  have hu : firstUniq l ≠ [] := by
    cases l with
    | nil => exact absurd rfl hne
    | cons a as => rw [firstUniq]; exact List.cons_ne_nil _ _
  obtain ⟨b, hb, hbmem, hbmax, hbidx⟩ :=
    mcAux_spec l (firstUniq l) hu (nodup_firstUniq l)
  refine ⟨b, hb, (mem_firstUniq l b).mp hbmem, ?_, ?_⟩
  · exact fun y hy => hbmax y ((mem_firstUniq l y).mpr hy)
  · intro y hy hc
    exact firstUniq_indexOf_le l b y hbmem ((mem_firstUniq l y).mpr hy)
      (hbidx y ((mem_firstUniq l y).mpr hy) hc)

theorem find?_map_eq {α β : Type} (f : α → β) (q : β → Bool) (p : α → Bool)
    (h : ∀ x, q (f x) = p x) :
    ∀ l : List α, (l.map f).find? q = (l.find? p).map f := by
  intro l
  induction l with
  | nil => rfl
  | cons a as ih =>
    rw [List.map_cons]
    by_cases hp : p a = true
    · rw [List.find?_cons_of_pos _ (by rw [h]; exact hp),
        List.find?_cons_of_pos _ hp]
      rfl
    · rw [List.find?_cons_of_neg _ (by rw [h]; simpa using hp),
        List.find?_cons_of_neg _ (by simpa using hp), ih]

theorem gfold_find (cid : String) (hcid : cid ≠ "") :
    ∀ (l : List PConv) (acc : List (String × List PConv)),
      (l.foldl gStep acc).find? (fun p => p.1 = cid)
        = match acc.find? (fun p => p.1 = cid) with
          | some p => some (p.1, p.2 ++ l.filter (fun c => c.customer_id = cid))
          | none =>
            if l.filter (fun c => c.customer_id = cid) = []
            then none
            else some (cid, l.filter (fun c => c.customer_id = cid)) := by
  intro l
  induction l with
  | nil =>
    intro acc
    cases hfind : acc.find? (fun p => p.1 = cid) with
    | none => simp [hfind]
    | some p => simp [hfind]
  | cons c cs ih =>
    intro acc
    rw [List.foldl_cons, ih (gStep acc c)]
    by_cases hce : c.customer_id = ""
    · have hne : ¬ (c.customer_id = cid) := fun h => hcid (h ▸ hce)
      rw [gStep, if_pos hce, List.filter_cons_of_neg (by simpa using hne)]
    · rw [gStep, if_neg hce]
      by_cases hmatch : c.customer_id = cid
      · rw [List.filter_cons_of_pos (by simpa using hmatch)]
        by_cases hany : acc.any (fun p => p.1 = c.customer_id)
        · rw [if_pos hany]
          rw [find?_map_eq
            (f := fun p => if p.1 = c.customer_id then (p.1, p.2 ++ [c]) else p)
            (q := fun p => p.1 = cid) (p := fun p => p.1 = cid)
            (fun x => by by_cases h1 : x.1 = c.customer_id <;> simp [h1]) acc]
          obtain ⟨q, hq, hq1⟩ : ∃ q ∈ acc, q.1 = c.customer_id := by
            simpa using List.any_eq_true.mp hany
          have hsome : (acc.find? (fun p => p.1 = cid)).isSome :=
            List.find?_isSome.mpr ⟨q, hq, by simp [hq1, hmatch]⟩
          obtain ⟨p, hp⟩ := Option.isSome_iff_exists.mp hsome
          have hp1 : p.1 = cid := by simpa using List.find?_some hp
          have hupd : (if p.1 = c.customer_id then (p.1, p.2 ++ [c]) else p)
              = (p.1, p.2 ++ [c]) := if_pos (by rw [hp1, hmatch])
          rw [hp]
          show (match some (if p.1 = c.customer_id then (p.1, p.2 ++ [c]) else p)
              with
            | some p =>
              some (p.1, p.2 ++ cs.filter (fun v : PConv => v.customer_id = cid))
            | none =>
              if cs.filter (fun v : PConv => v.customer_id = cid) = []
              then none
              else some (cid, cs.filter (fun v : PConv => v.customer_id = cid)))
            = _
          rw [hupd]
          simp
        · rw [if_neg hany]
          have hnone : acc.find? (fun p => p.1 = cid) = none := by
            rw [List.find?_eq_none]
            intro q hq hq1
            exact hany (List.any_eq_true.mpr
              ⟨q, hq, by simpa [hmatch] using hq1⟩)
          rw [List.find?_append, hnone, Option.none_or]
          have hsingle2 : [((c.customer_id, [c]) : String × List PConv)].find?
              (fun p => p.1 = cid) = some (c.customer_id, [c]) := by
            simp [List.find?, hmatch]
          rw [hsingle2]
          simp [hmatch, hnone]
      · rw [List.filter_cons_of_neg (by simpa using hmatch)]
        by_cases hany : acc.any (fun p => p.1 = c.customer_id)
        · rw [if_pos hany]
          rw [find?_map_eq
            (f := fun p => if p.1 = c.customer_id then (p.1, p.2 ++ [c]) else p)
            (q := fun p => p.1 = cid) (p := fun p => p.1 = cid)
            (fun x => by by_cases h1 : x.1 = c.customer_id <;> simp [h1]) acc]
          cases hfind : acc.find? (fun p => p.1 = cid) with
          | none => rfl
          | some p =>
            have hp1 : p.1 = cid := by simpa using List.find?_some hfind
            have hupd : (if p.1 = c.customer_id then (p.1, p.2 ++ [c]) else p)
                = p := if_neg (by rw [hp1]; exact fun h => hmatch h.symm)
            show (match some (if p.1 = c.customer_id then (p.1, p.2 ++ [c])
                else p) with
              | some p =>
                some (p.1,
                  p.2 ++ cs.filter (fun v : PConv => v.customer_id = cid))
              | none =>
                if cs.filter (fun v : PConv => v.customer_id = cid) = []
                then none
                else some (cid,
                  cs.filter (fun v : PConv => v.customer_id = cid))) = _
            rw [hupd]
        · rw [if_neg hany]
          rw [List.find?_append]
          have hsingle : ([(c.customer_id, [c])].find?
              (fun p => p.1 = cid)) = none := by
            rw [List.find?_eq_none]
            intro q hq
            rw [List.mem_singleton] at hq
            subst hq
            simpa using hmatch
          rw [hsingle, Option.or_none]

theorem gStep_keys_ne {acc : List (String × List PConv)} {c : PConv}
    (hacc : ∀ p ∈ acc, p.1 ≠ "") :
    ∀ p ∈ gStep acc c, p.1 ≠ "" := by
  intro p hp
  rw [gStep] at hp
  split at hp
  · exact hacc p hp
  · split at hp
    · rw [List.mem_map] at hp
      obtain ⟨q, hq, hqp⟩ := hp
      by_cases h1 : q.1 = c.customer_id
      · rw [if_pos h1] at hqp
        rw [← hqp]
        exact hacc q hq
      · rw [if_neg h1] at hqp
        exact hqp ▸ hacc q hq
    · next hne _ =>
      rw [List.mem_append, List.mem_singleton] at hp
      rcases hp with hp | hp
      · exact hacc p hp
      · rw [hp]
        exact hne

theorem groupByCustomer_keys_ne (convs : List PConv) :
    ∀ p ∈ groupByCustomer convs, p.1 ≠ "" := by
  rw [groupByCustomer]
  have h : ∀ (l : List PConv) (acc : List (String × List PConv)),
      (∀ p ∈ acc, p.1 ≠ "") → ∀ p ∈ l.foldl gStep acc, p.1 ≠ "" := by
    intro l
    induction l with
    | nil => exact fun acc hacc => hacc
    | cons c cs ih =>
      exact fun acc hacc => ih (gStep acc c) (gStep_keys_ne hacc)
  exact h convs [] (fun p hp => absurd hp (List.not_mem_nil p))

theorem allHistIds_cons (c : Conv) (cs : List Conv) :
    allHistIds (c :: cs)
      = c.chat_history.map (fun m => m.tweet_id) ++ allHistIds cs := by
  rw [allHistIds, allHistIds, List.flatMap_cons]

theorem histIds_nil_of_empty {l : List Conv}
    (h : ∀ c ∈ l, c.chat_history = []) : allHistIds l = [] := by
  rw [allHistIds, List.flatMap_eq_nil_iff]
  intro c hc
  rw [h c hc]
  rfl

theorem upsertConv_keys (acc : List Conv) (c : Conv)
    (h : (acc.map (fun x => x.primary_tweet_id)).Nodup) :
    ((upsertConv acc c).map (fun x => x.primary_tweet_id)).Nodup := by
  rw [upsertConv]
  split
  · have hkeys :
        ((acc.map (fun x =>
          if x.primary_tweet_id = c.primary_tweet_id then c else x)).map
            (fun x => x.primary_tweet_id))
          = acc.map (fun x => x.primary_tweet_id) := by
      rw [List.map_map]
      refine List.map_congr_left (fun a _ => ?_)
      by_cases hx : a.primary_tweet_id = c.primary_tweet_id <;> simp [hx]
    rw [hkeys]
    exact h
  · next hany =>
    rw [List.map_append]
    simp only [List.map_cons, List.map_nil]
    rw [List.nodup_append]
    refine ⟨h, List.nodup_singleton _, ?_⟩
    intro a ha hb
    rw [List.mem_singleton] at hb
    subst hb
    rw [List.mem_map] at ha
    obtain ⟨x, hx, hxa⟩ := ha
    exact hany (List.any_eq_true.mpr ⟨x, hx, by simp [hxa]⟩)

theorem loadStore_keys (s : List Conv) :
    ((loadStore s).map (fun x => x.primary_tweet_id)).Nodup := by
  rw [loadStore]
  have h : ∀ (l : List Conv) (acc : List Conv),
      (acc.map (fun x => x.primary_tweet_id)).Nodup →
      ((l.foldl upsertConv acc).map (fun x => x.primary_tweet_id)).Nodup := by
    intro l
    induction l with
    | nil => exact fun acc hacc => hacc
    | cons c cs ih => exact fun acc hacc => ih _ (upsertConv_keys acc c hacc)
  exact h s [] (by simp)

theorem nodup_loadStore_ids {s : List Conv} (h : (allHistIds s).Nodup) :
    (allHistIds (loadStore s)).Nodup := by
  rw [allHistIds] at h ⊢
  obtain ⟨heach, hpair⟩ := List.nodup_flatMap.mp h
  refine List.nodup_flatMap.mpr ⟨?_, ?_⟩
  · exact fun c hc => heach c (mem_loadStore hc)
  · have hnodupL : (loadStore s).Nodup :=
      List.Nodup.of_map _ (loadStore_keys s)
    refine List.Nodup.pairwise_of_forall_ne hnodupL ?_
    intro a ha b hb hab
    exact (List.Pairwise.forall (fun x y hxy => hxy.symm) hpair)
      (mem_loadStore ha) (mem_loadStore hb) hab

theorem allHistIds_updateFirst_perm {p : Conv → Bool} {f : Conv → Conv}
    {t : String}
    (hf : ∀ c, (f c).chat_history.map (fun m => m.tweet_id)
      = c.chat_history.map (fun m => m.tweet_id) ++ [t]) :
    ∀ l : List Conv, (l.find? p).isSome →
      List.Perm (allHistIds (updateFirst p f l)) (t :: allHistIds l) := by
  intro l
  induction l with
  | nil => intro h; exact absurd h (by simp)
  | cons c cs ih =>
    intro hsome
    rw [updateFirst]
    by_cases hp : p c = true
    · rw [if_pos hp, allHistIds_cons, allHistIds_cons, hf c, List.append_assoc]
      exact List.perm_middle
    · rw [if_neg hp, allHistIds_cons, allHistIds_cons]
      have hsome' : (cs.find? p).isSome := by
        rwa [List.find?_cons_of_neg _ (by simp [hp])] at hsome
      exact ((ih hsome').append_left _).trans List.perm_middle

/-- The induction invariant of the thread-building loop: all history
ids (existing plus new) are globally duplicate-free, every existing id
is in the seen set, and no remaining row id already sits in a new
conversation's history. -/
def DedupInv (st : BuildState) (rem : List Row) : Prop :=
  (allHistIds st.ex ++ allHistIds st.nw).Nodup ∧
  (∀ x ∈ allHistIds st.ex, x ∈ st.seen) ∧
  (∀ r ∈ rem, r.tweet_id ∉ allHistIds st.nw) ∧
  (rem.map (fun r => r.tweet_id)).Nodup

theorem step2_dedupInv {rows : List Row} {st : BuildState} {r : Row}
    {rem : List Row} (h : DedupInv st (r :: rem)) :
    DedupInv (step2 rows st r) rem := by
  obtain ⟨h1, h2, h3, h4⟩ := h
  rw [List.map_cons, List.nodup_cons] at h4
  obtain ⟨hrrem, h4'⟩ := h4
  have h3' : ∀ r' ∈ rem, r'.tweet_id ∉ allHistIds st.nw :=
    fun r' hr' => h3 r' (List.mem_cons_of_mem r hr')
  have hskip : DedupInv st rem := ⟨h1, h2, h3', h4'⟩
  rw [step2]
  split
  · exact hskip
  next hseen =>
    split
    · exact hskip
    next R hfcr =>
      split
      · next c hfind =>
        split
        · exact hskip
        next hdup =>
          have hperm := allHistIds_updateFirst_perm
            (p := fun c' => c'.tail_id = R)
            (f := fun c' => { c' with
              chat_history := c'.chat_history ++ [mkMsg r]
              processed := false })
            (t := r.tweet_id)
            (fun c' => by
              show (c'.chat_history ++ [mkMsg r]).map (fun m => m.tweet_id)
                  = _ ++ [r.tweet_id]
              rw [List.map_append]; rfl)
            st.ex (by rw [hfind]; rfl)
          have hrex : r.tweet_id ∉ allHistIds st.ex :=
            fun hmem => hseen (h2 _ hmem)
          have hrnw : r.tweet_id ∉ allHistIds st.nw :=
            h3 r (List.mem_cons_self r rem)
          refine ⟨?_, ?_, h3', h4'⟩
          · have htrans : List.Perm
                (allHistIds (updateFirst (fun c' => c'.tail_id = R)
                  (fun c' => { c' with
                    chat_history := c'.chat_history ++ [mkMsg r]
                    processed := false }) st.ex) ++ allHistIds st.nw)
                (r.tweet_id :: (allHistIds st.ex ++ allHistIds st.nw)) :=
              (hperm.append (List.Perm.refl _))
            refine htrans.nodup_iff.mpr ?_
            rw [List.nodup_cons]
            exact ⟨fun hmem => (List.mem_append.mp hmem).elim hrex hrnw, h1⟩
          · intro x hx
            rcases List.mem_cons.mp ((List.Perm.mem_iff hperm).mp hx)
              with hx1 | hx1
            · rw [hx1]
              exact List.mem_append.mpr (Or.inr (List.mem_singleton.mpr rfl))
            · exact List.mem_append.mpr (Or.inl (h2 x hx1))
      · split
        · next c hfind =>
          split
          · exact hskip
          next hdup =>
            have hperm := allHistIds_updateFirst_perm
              (p := fun c' => c'.primary_tweet_id = R)
              (f := fun c' => { c' with
                chat_history := c'.chat_history ++ [mkMsg r] })
              (t := r.tweet_id)
              (fun c' => by
                show (c'.chat_history ++ [mkMsg r]).map (fun m => m.tweet_id)
                    = _ ++ [r.tweet_id]
                rw [List.map_append]; rfl)
              st.nw (by rw [hfind]; rfl)
            have hrex : r.tweet_id ∉ allHistIds st.ex :=
              fun hmem => hseen (h2 _ hmem)
            have hrnw : r.tweet_id ∉ allHistIds st.nw :=
              h3 r (List.mem_cons_self r rem)
            refine ⟨?_, h2, ?_, h4'⟩
            · have htrans : List.Perm
                  (allHistIds st.ex ++ allHistIds (updateFirst
                    (fun c' => c'.primary_tweet_id = R)
                    (fun c' => { c' with
                      chat_history := c'.chat_history ++ [mkMsg r] }) st.nw))
                  (allHistIds st.ex ++ (r.tweet_id :: allHistIds st.nw)) :=
                hperm.append_left _
              refine (htrans.trans List.perm_middle).nodup_iff.mpr ?_
              rw [List.nodup_cons]
              exact ⟨fun hmem => (List.mem_append.mp hmem).elim hrex hrnw, h1⟩
            · intro r' hr' hmem
              rcases List.mem_cons.mp ((List.Perm.mem_iff hperm).mp hmem)
                with hx1 | hx1
              · exact hrrem (hx1 ▸ List.mem_map_of_mem (fun r0 => r0.tweet_id) hr')
              · exact h3' r' hr' hx1
        · exact hskip

theorem foldl_dedupInv (rows : List Row) :
    ∀ (rem : List Row) (st : BuildState),
      DedupInv st rem → DedupInv (rem.foldl (step2 rows) st) [] := by
  intro rem
  induction rem with
  | nil => exact fun st h => h
  | cons r rs ih => exact fun st h => ih _ (step2_dedupInv h)

theorem dedupRows_ids_nodup :
    ∀ (l : List Row) (seen : List String),
      ((dedupRows l seen).map (fun r => r.tweet_id)).Nodup ∧
      ∀ x ∈ (dedupRows l seen).map (fun r => r.tweet_id), x ∉ seen := by
  intro l
  induction l with
  | nil => intro seen; exact ⟨List.nodup_nil, by simp [dedupRows]⟩
  | cons r rs ih =>
    intro seen
    rw [dedupRows]
    split
    · exact ih seen
    · next hnot =>
      rw [List.map_cons]
      constructor
      · rw [List.nodup_cons]
        exact ⟨fun hmem => (ih (r.tweet_id :: seen)).2 _ hmem
            (List.mem_cons_self _ _),
          (ih (r.tweet_id :: seen)).1⟩
      · intro x hx hxseen
        rcases List.mem_cons.mp hx with rfl | hx
        · exact hnot hxseen
        · exact (ih (r.tweet_id :: seen)).2 x hx (List.mem_cons_of_mem _ hxseen)

theorem cleanRows_ids_nodup (rows : List Row) :
    ((cleanRows rows).map (fun r => r.tweet_id)).Nodup := by
  rw [cleanRows]
  exact ((List.filter_sublist _).map _).nodup (dedupRows_ids_nodup _ []).1

theorem msgIds_sortHistory_perm (h : List Msg) :
    List.Perm ((sortHistory h).map (fun m => m.tweet_id))
      (h.map (fun m => m.tweet_id)) := by
  rw [sortHistory]
  split
  · exact (List.perm_insertionSort msgLE h).map _
  · exact List.Perm.refl _

theorem ids_finalizeExisting_perm (rows : List Row) (c : Conv) :
    List.Perm ((finalizeExisting rows c).chat_history.map (fun m => m.tweet_id))
      (c.chat_history.map (fun m => m.tweet_id)) := by
  rw [finalizeExisting]
  simp only
  rw [msgIds_eraseCustKeys]
  exact msgIds_sortHistory_perm _

theorem ids_finalizeNew_perm (rows : List Row) (c : Conv) :
    List.Perm ((finalizeNew rows c).chat_history.map (fun m => m.tweet_id))
      (c.chat_history.map (fun m => m.tweet_id)) := by
  rw [finalizeNew]
  simp only
  rw [msgIds_eraseCustKeys]
  exact msgIds_sortHistory_perm _

theorem allHistIds_map_finalizeExisting_perm (rows : List Row) :
    ∀ l : List Conv,
      List.Perm (allHistIds (l.map (finalizeExisting rows))) (allHistIds l) := by
  intro l
  induction l with
  | nil => exact List.Perm.refl _
  | cons c cs ih =>
    rw [List.map_cons, allHistIds_cons, allHistIds_cons]
    exact (ids_finalizeExisting_perm rows c).append ih

theorem allHistIds_map_finalizeNew_perm (rows : List Row) :
    ∀ l : List Conv,
      List.Perm (allHistIds (l.map (finalizeNew rows))) (allHistIds l) := by
  intro l
  induction l with
  | nil => exact List.Perm.refl _
  | cons c cs ih =>
    rw [List.map_cons, allHistIds_cons, allHistIds_cons]
    exact (ids_finalizeNew_perm rows c).append ih

theorem foldl_fixed_point {α β : Type} (f : α → β → α) (a : α) :
    ∀ l : List β, (∀ b ∈ l, f a b = a) → l.foldl f a = a := by
  intro l
  induction l with
  | nil => intro _; rfl
  | cons b bs ih =>
    intro h
    rw [List.foldl_cons, h b (List.mem_cons_self b bs)]
    exact ih (fun b' hb' => h b' (List.mem_cons_of_mem b hb'))

theorem fcr_root_mem {rows : List Row} :
    ∀ (fuel : Nat) (t R : String),
      find_conversation_root rows fuel t = some R →
      ∃ row ∈ rows, row.tweet_id = R ∧ row.in_response_to = "" := by
  intro fuel
  induction fuel with
  | zero =>
    intro t R h
    rw [find_conversation_root] at h
    exact Option.noConfusion h
  | succ n ih =>
    intro t R h
    rw [find_conversation_root] at h
    by_cases ht : t = ""
    · rw [if_pos ht] at h
      exact Option.noConfusion h
    · rw [if_neg ht] at h
      cases hfind : rows.find? (fun r => r.tweet_id = t) with
      | none =>
        rw [hfind] at h
        exact Option.noConfusion h
      | some r =>
        rw [hfind] at h
        have h' : (if r.in_response_to = "" then some t
            else find_conversation_root rows n r.in_response_to) = some R := h
        by_cases hpar : r.in_response_to = ""
        · rw [if_pos hpar] at h'
          have hR : t = R := Option.some.inj h'
          have hrid : r.tweet_id = t := by
            simpa using List.find?_some hfind
          exact ⟨r, List.mem_of_find?_eq_some hfind, hR ▸ hrid, hpar⟩
        · rw [if_neg hpar] at h'
          exact ih _ _ h'

theorem step2_nil_shape (rows : List Row) (r : Row) (nw : List Conv)
    (seen : List String) :
    ∃ nw', step2 rows ⟨[], nw, seen⟩ r = ⟨[], nw', seen⟩ := by
  rw [step2]
  split
  · exact ⟨nw, rfl⟩
  · split
    · exact ⟨nw, rfl⟩
    · split
      · next hc => exact absurd hc (by simp)
      · split
        · split
          · exact ⟨nw, rfl⟩
          · exact ⟨_, rfl⟩
        · exact ⟨nw, rfl⟩

theorem foldl_step2_nil (rows : List Row) :
    ∀ (l : List Row) (nw : List Conv) (seen : List String),
      ∃ nw', l.foldl (step2 rows) ⟨[], nw, seen⟩ = ⟨[], nw', seen⟩ := by
  intro l
  induction l with
  | nil => exact fun nw seen => ⟨nw, rfl⟩
  | cons r rs ih =>
    intro nw seen
    obtain ⟨nw1, h1⟩ := step2_nil_shape rows r nw seen
    rw [List.foldl_cons, h1]
    exact ih nw1 seen

theorem keys_updateFirst {p : Conv → Bool} {f : Conv → Conv}
    (hf : ∀ c, (f c).primary_tweet_id = c.primary_tweet_id) :
    ∀ l : List Conv,
      (updateFirst p f l).map (fun c => c.primary_tweet_id)
        = l.map (fun c => c.primary_tweet_id) := by
  intro l
  induction l with
  | nil => rfl
  | cons c cs ih =>
    rw [updateFirst]
    by_cases hp : p c = true
    · rw [if_pos hp, List.map_cons, List.map_cons, hf c]
    · rw [if_neg hp, List.map_cons, List.map_cons, ih]

theorem step2_nw_keys (rows : List Row) (st : BuildState) (r : Row) :
    (step2 rows st r).nw.map (fun c => c.primary_tweet_id)
      = st.nw.map (fun c => c.primary_tweet_id) := by
  rw [step2]
  split
  · rfl
  · split
    · rfl
    · split
      · split
        · rfl
        · rfl
      · split
        · next R hfcr c hc =>
          split
          · rfl
          · exact keys_updateFirst
              (f := fun c' => { c' with
                chat_history := c'.chat_history ++ [mkMsg r] })
              (fun c' => rfl) st.nw
        · rfl

theorem foldl_step2_nw_keys (rows : List Row) :
    ∀ (l : List Row) (st : BuildState),
      (l.foldl (step2 rows) st).nw.map (fun c => c.primary_tweet_id)
        = st.nw.map (fun c => c.primary_tweet_id) := by
  intro l
  induction l with
  | nil => exact fun st => rfl
  | cons r rs ih =>
    intro st
    rw [List.foldl_cons, ih (step2 rows st r), step2_nw_keys]

theorem any_primary_of_keys_eq {R : String} :
    ∀ {l₁ l₂ : List Conv},
      l₁.map (fun c => c.primary_tweet_id)
        = l₂.map (fun c => c.primary_tweet_id) →
      (l₁.any (fun c => c.primary_tweet_id = R))
        = (l₂.any (fun c => c.primary_tweet_id = R)) := by
  intro l₁
  induction l₁ with
  | nil =>
    intro l₂ h
    have : l₂ = [] := by
      cases l₂ with
      | nil => rfl
      | cons d ds => exact absurd h.symm (by simp)
    rw [this]
  | cons c cs ih =>
    intro l₂ h
    cases l₂ with
    | nil => exact absurd h (by simp)
    | cons d ds =>
      rw [List.map_cons, List.map_cons] at h
      have h1 : c.primary_tweet_id = d.primary_tweet_id :=
        (List.cons.injEq _ _ _ _ ▸ h).1
      have h2 : cs.map (fun c => c.primary_tweet_id)
          = ds.map (fun c => c.primary_tweet_id) :=
        (List.cons.injEq _ _ _ _ ▸ h).2
      rw [List.any_cons, List.any_cons, h1, ih h2]

theorem step1_any_mono {rows : List Row} {store : List Conv}
    {seen : List String} {R : String} {acc : List Conv} {r : Row}
    (h : (acc.any (fun c => c.primary_tweet_id = R)) = true) :
    ((step1 rows store seen acc r).any
      (fun c => c.primary_tweet_id = R)) = true := by
  rw [step1]
  split
  · exact h
  · split
    · exact h
    · split
      · exact h
      · split
        · exact h
        · split
          · exact h
          · rw [List.any_append, h, Bool.true_or]

theorem foldl_step1_any_mono {rows : List Row} {store : List Conv}
    {seen : List String} {R : String} :
    ∀ (l : List Row) (acc : List Conv),
      (acc.any (fun c => c.primary_tweet_id = R)) = true →
      ((l.foldl (step1 rows store seen) acc).any
        (fun c => c.primary_tweet_id = R)) = true := by
  intro l
  induction l with
  | nil => exact fun acc h => h
  | cons r rs ih =>
    intro acc h
    rw [List.foldl_cons]
    exact ih _ (step1_any_mono h)

theorem key_after_step1_self {rows : List Row} (acc : List Conv) (r : Row)
    (R : String) (hfcr : fcr rows r.tweet_id = some R) :
    ((step1 rows [] [] acc r).any (fun c => c.primary_tweet_id = R))
      = true := by
  rw [step1]
  rw [if_neg (List.not_mem_nil _)]
  simp only [hfcr]
  rw [if_neg (by simp)]
  by_cases hacc : (acc.any (fun c => c.primary_tweet_id = R)) = true
  · rw [if_pos hacc]
    exact hacc
  · rw [if_neg hacc]
    obtain ⟨row, hrowmem, hrowid, _⟩ :=
      fcr_root_mem (rows.length + 1) r.tweet_id R hfcr
    have hfound : (rows.find? (fun row => row.tweet_id = R)).isSome :=
      List.find?_isSome.mpr ⟨row, hrowmem, by simp [hrowid]⟩
    obtain ⟨rowR, hrowR⟩ := Option.isSome_iff_exists.mp hfound
    simp only [hrowR]
    rw [List.any_append]
    have : ([freshConv R rowR.text].any
        (fun c => c.primary_tweet_id = R)) = true := by
      simp [freshConv]
    rw [this, Bool.or_true]

theorem key_coverage_phase1 {rows : List Row} :
    ∀ (l : List Row) (acc : List Conv) (r₀ : Row) (R : String), r₀ ∈ l →
      fcr rows r₀.tweet_id = some R →
      ((l.foldl (step1 rows [] []) acc).any
        (fun c => c.primary_tweet_id = R)) = true := by
  intro l
  induction l with
  | nil => intro _ _ _ h; exact absurd h (List.not_mem_nil _)
  | cons r rs ih =>
    intro acc r₀ R hmem hfcr
    rw [List.foldl_cons]
    rcases List.mem_cons.mp hmem with rfl | hmem1
    · exact foldl_step1_any_mono rs _ (key_after_step1_self acc r₀ R hfcr)
    · exact ih _ r₀ R hmem1 hfcr

theorem step2_nw_ids_mono {rows : List Row} {st : BuildState} {r : Row}
    {x : String} (h : x ∈ allHistIds st.nw) :
    x ∈ allHistIds (step2 rows st r).nw := by
  rw [step2]
  split
  · exact h
  · split
    · exact h
    · next R hfcr =>
      split
      · split
        · exact h
        · exact h
      · split
        · next c hc =>
          split
          · exact h
          · have hperm := allHistIds_updateFirst_perm
              (p := fun c' => c'.primary_tweet_id = R)
              (f := fun c' => { c' with
                chat_history := c'.chat_history ++ [mkMsg r] })
              (t := r.tweet_id)
              (fun c' => by
                show (c'.chat_history ++ [mkMsg r]).map (fun m => m.tweet_id)
                    = _ ++ [r.tweet_id]
                rw [List.map_append]; rfl)
              st.nw (by rw [hc]; rfl)
            exact hperm.mem_iff.mpr (List.mem_cons_of_mem _ h)
        · exact h

theorem foldl_step2_nw_ids_mono {rows : List Row} :
    ∀ (l : List Row) (st : BuildState) (x : String),
      x ∈ allHistIds st.nw →
      x ∈ allHistIds ((l.foldl (step2 rows) st).nw) := by
  intro l
  induction l with
  | nil => exact fun st x h => h
  | cons r rs ih =>
    intro st x h
    rw [List.foldl_cons]
    exact ih _ x (step2_nw_ids_mono h)

theorem coverage_phase2 (rows : List Row) :
    ∀ (rem : List Row) (nw : List Conv),
      (∀ (R : String) (r' : Row), r' ∈ rows →
        fcr rows r'.tweet_id = some R →
        (nw.any (fun c => c.primary_tweet_id = R)) = true) →
      (∀ r' ∈ rem, r'.tweet_id ∉ allHistIds nw) →
      ((rem.map (fun r => r.tweet_id)).Nodup) →
      (∀ r' ∈ rem, r' ∈ rows) →
      ∀ r₀ ∈ rem, fcr rows r₀.tweet_id ≠ none →
        r₀.tweet_id ∈
          allHistIds ((rem.foldl (step2 rows) ⟨[], nw, []⟩).nw) := by
  intro rem
  induction rem with
  | nil =>
    intro nw _ _ _ _ r₀ h
    exact absurd h (List.not_mem_nil _)
  | cons r rs ih =>
    intro nw hkeys hfresh hnodup hrows r₀ hr₀ hfcr₀
    rw [List.foldl_cons]
    rw [List.map_cons, List.nodup_cons] at hnodup
    obtain ⟨hrid_fresh, hnodup1⟩ := hnodup
    cases hfcr : fcr rows r.tweet_id with
    | none =>
      have hstep : step2 rows ⟨[], nw, []⟩ r = ⟨[], nw, []⟩ := by
        rw [step2, if_neg (List.not_mem_nil _)]
        simp only [hfcr]
      rw [hstep]
      rcases List.mem_cons.mp hr₀ with rfl | hr₀1
      · exact absurd hfcr hfcr₀
      · exact ih nw hkeys
          (fun r' h => hfresh r' (List.mem_cons_of_mem _ h)) hnodup1
          (fun r' h => hrows r' (List.mem_cons_of_mem _ h)) r₀ hr₀1 hfcr₀
    | some R =>
      have hkeyR := hkeys R r (hrows r (List.mem_cons_self _ _)) hfcr
      have hfound : (nw.find? (fun c => c.primary_tweet_id = R)).isSome := by
        obtain ⟨c, hcm, hcp⟩ := List.any_eq_true.mp hkeyR
        exact List.find?_isSome.mpr ⟨c, hcm, hcp⟩
      obtain ⟨c, hc⟩ := Option.isSome_iff_exists.mp hfound
      have hcmem : c ∈ nw := List.mem_of_find?_eq_some hc
      have hdup : r.tweet_id ∉ c.chat_history.map (fun m => m.tweet_id) := by
        intro hmem
        exact hfresh r (List.mem_cons_self _ _)
          (mem_allHistIds.mpr ⟨c, hcmem, hmem⟩)
      have hstep : step2 rows ⟨[], nw, []⟩ r
          = ⟨[], updateFirst (fun c' => c'.primary_tweet_id = R)
              (fun c' => { c' with
                chat_history := c'.chat_history ++ [mkMsg r] }) nw, []⟩ := by
        rw [step2, if_neg (List.not_mem_nil _)]
        simp only [hfcr, List.find?_nil, hc]
        rw [if_neg hdup]
      rw [hstep]
      have hperm := allHistIds_updateFirst_perm
        (p := fun c' => c'.primary_tweet_id = R)
        (f := fun c' => { c' with
          chat_history := c'.chat_history ++ [mkMsg r] })
        (t := r.tweet_id)
        (fun c' => by
          show (c'.chat_history ++ [mkMsg r]).map (fun m => m.tweet_id)
              = _ ++ [r.tweet_id]
          rw [List.map_append]; rfl)
        nw (by rw [hc]; rfl)
      rcases List.mem_cons.mp hr₀ with rfl | hr₀1
      · exact foldl_step2_nw_ids_mono rs _ r₀.tweet_id
          (hperm.mem_iff.mpr (List.mem_cons_self _ _))
      · refine ih _ ?_ ?_ hnodup1
          (fun r' h => hrows r' (List.mem_cons_of_mem _ h)) r₀ hr₀1 hfcr₀
        · intro R' r' hr'rows hr'fcr
          have hkeq := keys_updateFirst
            (p := fun c' => c'.primary_tweet_id = R)
            (f := fun c' => { c' with
              chat_history := c'.chat_history ++ [mkMsg r] })
            (fun c' => rfl) nw
          rw [any_primary_of_keys_eq hkeq]
          exact hkeys R' r' hr'rows hr'fcr
        · intro r' hr' hmem
          rcases List.mem_cons.mp (hperm.mem_iff.mp hmem) with h1 | h1
          · exact hrid_fresh
              (h1 ▸ List.mem_map_of_mem (fun r0 => r0.tweet_id) hr')
          · exact hfresh r' (List.mem_cons_of_mem _ hr') h1

theorem sortHistory_all_ok (h : List Msg) :
    ((sortHistory h).all (fun m => m.created_ok))
      = (h.all (fun m => m.created_ok)) := by
  rw [sortHistory]
  split
  · next hok =>
    rw [hok]
    rw [List.all_eq_true]
    intro m hm
    exact List.all_eq_true.mp hok m ((List.mem_insertionSort msgLE).mp hm)
  · rfl

theorem eraseCustKeys_all_ok (h : List Msg) :
    ((eraseCustKeys h).all (fun m => m.created_ok))
      = (h.all (fun m => m.created_ok)) := by
  induction h with
  | nil => rfl
  | cons m ms ih =>
    rw [eraseCustKeys, List.map_cons, List.all_cons, List.all_cons]
    rw [eraseCustKeys] at ih
    rw [ih]

theorem pairwise_eraseCustKeys {h : List Msg}
    (hs : h.Pairwise msgLE) : (eraseCustKeys h).Pairwise msgLE := by
  rw [eraseCustKeys]
  exact hs.map _ (fun a b hab => hab)

theorem sortHistory_of_all_ok {h : List Msg}
    (hok : (h.all (fun m => m.created_ok)) = true) :
    sortHistory h = h.insertionSort msgLE := by
  rw [sortHistory, if_pos hok]

theorem sortHistory_of_not_all_ok {h : List Msg}
    (hok : ¬ (h.all (fun m => m.created_ok)) = true) :
    sortHistory h = h := by
  rw [sortHistory, if_neg hok]

theorem sortHistory_erase_sort (h0 : List Msg) :
    sortHistory (eraseCustKeys (sortHistory h0))
      = eraseCustKeys (sortHistory h0) := by
  by_cases hok : (h0.all (fun m => m.created_ok)) = true
  · have hokE : ((eraseCustKeys (sortHistory h0)).all
        (fun m => m.created_ok)) = true := by
      rw [eraseCustKeys_all_ok, sortHistory_all_ok]
      exact hok
    have hsorted2 : (eraseCustKeys (sortHistory h0)).Pairwise msgLE := by
      refine pairwise_eraseCustKeys ?_
      rw [sortHistory_of_all_ok hok]
      exact List.sorted_insertionSort msgLE h0
    rw [sortHistory_of_all_ok hokE]
    exact List.Sorted.insertionSort_eq hsorted2
  · have hokE : ¬ ((eraseCustKeys (sortHistory h0)).all
        (fun m => m.created_ok)) = true := by
      rw [eraseCustKeys_all_ok, sortHistory_all_ok]
      exact hok
    exact sortHistory_of_not_all_ok hokE

theorem customerIdsList_none (h : List Msg)
    (hall : ∀ m ∈ h, m.customer_id = none) : customerIdsList h = [] := by
  rw [customerIdsList]
  refine foldl_fixed_point _ [] h (fun m hm => ?_)
  rw [hall m hm]

theorem companyIdsList_erase (rows : List Row) (h : List Msg) :
    companyIdsList rows (eraseCustKeys h) = companyIdsList rows h := by
  rw [companyIdsList, companyIdsList, eraseCustKeys, List.foldl_map]

theorem eraseCustKeys_idem (h : List Msg) :
    eraseCustKeys (eraseCustKeys h) = eraseCustKeys h := by
  rw [eraseCustKeys, eraseCustKeys, List.map_map]
  exact List.map_congr_left (fun m _ => rfl)

theorem getLast_eraseCustKeys (h : List Msg) :
    (eraseCustKeys h).getLast?
      = h.getLast?.map (fun m => { m with customer_id := none }) := by
  rw [eraseCustKeys]
  exact List.getLast?_map _ h

theorem finalizeExisting_finalizeNew (rows : List Row) (c : Conv) :
    finalizeExisting rows (finalizeNew rows c) = finalizeNew rows c := by
  have hhist : (finalizeNew rows c).chat_history
      = eraseCustKeys (sortHistory c.chat_history) := rfl
  have hsimp : sortHistory (finalizeNew rows c).chat_history
      = (finalizeNew rows c).chat_history := by
    rw [hhist]
    exact sortHistory_erase_sort c.chat_history
  have h_hist : eraseCustKeys (finalizeNew rows c).chat_history
      = (finalizeNew rows c).chat_history := by
    rw [hhist]
    exact eraseCustKeys_idem _
  have h_cust : customerIdsList (finalizeNew rows c).chat_history = [] := by
    rw [hhist]
    refine customerIdsList_none _ (fun m hm => ?_)
    rw [eraseCustKeys] at hm
    obtain ⟨m0, _, hm0⟩ := List.mem_map.mp hm
    rw [← hm0]
  have h_comp : companyIdsList rows (finalizeNew rows c).chat_history
      = companyIdsList rows (sortHistory c.chat_history) := by
    rw [hhist]
    exact companyIdsList_erase rows (sortHistory c.chat_history)
  have h_tail : (match (finalizeNew rows c).chat_history.getLast? with
      | some m => m.tweet_id
      | none => (finalizeNew rows c).tail_id) = (finalizeNew rows c).tail_id := by
    have hFL : (finalizeNew rows c).chat_history.getLast?
        = ((sortHistory c.chat_history).getLast?).map
          (fun m => { m with customer_id := none }) := by
      rw [hhist]
      exact getLast_eraseCustKeys _
    rw [hFL]
    cases hL : (sortHistory c.chat_history).getLast? with
    | none => rfl
    | some m =>
      have hT : (finalizeNew rows c).tail_id = m.tweet_id := by
        show (match (sortHistory c.chat_history).getLast? with
          | some m => m.tweet_id
          | none => c.primary_tweet_id) = m.tweet_id
        rw [hL]
      rw [hT]
      rfl
  show { finalizeNew rows c with
      chat_history :=
        eraseCustKeys (sortHistory (finalizeNew rows c).chat_history)
      tail_id :=
        match (sortHistory (finalizeNew rows c).chat_history).getLast? with
        | some m => m.tweet_id
        | none => (finalizeNew rows c).tail_id
      customer_id :=
        if (customerIdsList
            (sortHistory (finalizeNew rows c).chat_history)).isEmpty
        then (finalizeNew rows c).customer_id
        else (customerIdsList
          (sortHistory (finalizeNew rows c).chat_history)).headD ""
      company_id :=
        if (companyIdsList rows
            (sortHistory (finalizeNew rows c).chat_history)).isEmpty
        then (finalizeNew rows c).company_id
        else (companyIdsList rows
          (sortHistory (finalizeNew rows c).chat_history)).headD "" }
    = finalizeNew rows c
  have h_co : (finalizeNew rows c).company_id
      = (companyIdsList rows (sortHistory c.chat_history)).headD "" := rfl
  have h_compfield :
      (if (companyIdsList rows (sortHistory c.chat_history)).isEmpty
        then (finalizeNew rows c).company_id
        else (companyIdsList rows (sortHistory c.chat_history)).headD "")
      = (finalizeNew rows c).company_id := by
    cases hE : companyIdsList rows (sortHistory c.chat_history) with
    | nil => rfl
    | cons a as =>
      show (a :: as).headD "" = (finalizeNew rows c).company_id
      rw [h_co, hE]
  rw [hsimp, h_hist, h_tail, h_cust, h_comp, h_compfield]
  rfl

theorem step1_keys_nodup {rows : List Row} {store : List Conv}
    {seen : List String} {acc : List Conv} {r : Row}
    (h : (acc.map (fun c => c.primary_tweet_id)).Nodup) :
    ((step1 rows store seen acc r).map
      (fun c => c.primary_tweet_id)).Nodup := by
  rw [step1]
  split
  · exact h
  · split
    · exact h
    · split
      · exact h
      · split
        next hany =>
          exact h
        next hany =>
          split
          · exact h
          · rw [List.map_append]
            simp only [List.map_cons, List.map_nil]
            rw [List.nodup_append]
            refine ⟨h, List.nodup_singleton _, ?_⟩
            intro a ha hb
            rw [List.mem_singleton] at hb
            subst hb
            rw [List.mem_map] at ha
            obtain ⟨x, hx, hxa⟩ := ha
            exact hany (List.any_eq_true.mpr ⟨x, hx, by
              show (x.primary_tweet_id = _ : Bool) = true
              simp [hxa, freshConv]⟩)

theorem foldl_step1_keys_nodup {rows : List Row} {store : List Conv}
    {seen : List String} :
    ∀ (l : List Row) (acc : List Conv),
      (acc.map (fun c => c.primary_tweet_id)).Nodup →
      ((l.foldl (step1 rows store seen) acc).map
        (fun c => c.primary_tweet_id)).Nodup := by
  intro l
  induction l with
  | nil => exact fun acc h => h
  | cons r rs ih =>
    intro acc h
    rw [List.foldl_cons]
    exact ih _ (step1_keys_nodup h)

theorem foldl_upsertConv_append :
    ∀ (l acc : List Conv),
      (((acc ++ l).map (fun c => c.primary_tweet_id)).Nodup) →
      l.foldl upsertConv acc = acc ++ l := by
  intro l
  induction l with
  | nil =>
    intro acc _
    rw [List.foldl_nil, List.append_nil]
  | cons c cs ih =>
    intro acc hnd
    rw [List.foldl_cons]
    have hnotin : ¬ (acc.any
        (fun x => x.primary_tweet_id = c.primary_tweet_id)) = true := by
      intro hany
      obtain ⟨x, hx, hxp⟩ := List.any_eq_true.mp hany
      have hxp1 : x.primary_tweet_id = c.primary_tweet_id := by
        simpa using hxp
      rw [List.map_append] at hnd
      have hdisj := (List.nodup_append.mp hnd).2.2
      exact hdisj (List.mem_map_of_mem _ hx)
        (by rw [List.map_cons]; exact hxp1 ▸ List.mem_cons_self _ _)
    have hup : upsertConv acc c = acc ++ [c] := by
      rw [upsertConv, if_neg hnotin]
    rw [hup]
    have hstep := ih (acc ++ [c]) (by rw [List.append_assoc]; exact hnd)
    rw [hstep, List.append_assoc]
    rfl

theorem loadStore_eq_self {s : List Conv}
    (h : (s.map (fun c => c.primary_tweet_id)).Nodup) : loadStore s = s := by
  rw [loadStore]
  have hstep := foldl_upsertConv_append s [] (by simpa using h)
  simpa using hstep

/-! ## Claim theorems -/

/-- C1 counterexample: a store holding a single settled conversation
(root `r1`, tail `t1`) is fed exactly one new message `m1` whose parent
reference is that tail.  The parent chain cannot be resolved inside the
batch (`t1` is not a row of the input), so the message is dropped: the
store is returned unchanged, the conversation stays settled, and the
run's unsettled set is empty — contradicting the claimed reopening with
a one-longer history. -/
theorem incremental_reopening_counterexample :
    c1conv.processed = true ∧
    c1row.in_response_to = c1conv.tail_id ∧
    convert_twitter_csv_to_json [c1row] [c1conv] = [c1conv] ∧
    (convert_twitter_csv_to_json [c1row] [c1conv]).filter
      (fun c => !c.processed) = [] := by decide

/-- C2 counterexample: a single message whose parent reference (`ghost`)
matches no row in the data is not degraded to a root — the output store
is empty, so the message is in no conversation at all. -/
theorem unresolvable_parent_counterexample :
    convert_twitter_csv_to_json [c2row] [] = [] ∧
    ¬ ∃ c, c ∈ convert_twitter_csv_to_json [c2row] [] ∧
        c.primary_tweet_id = c2row.tweet_id := by decide

/-- C3 counterexample: run one ingests the two-message thread
`r1 ← t1`; run two sees the same rows plus a reply `m1` to `t1`.  The
new message's chain resolves to the root `r1`, which differs from the
stored tail `t1`, so ingestion opens a second conversation keyed `r1`
and the persisted collection ends up with two records sharing
`primary_tweet_id = "r1"`. -/
theorem merge_by_key_counterexample :
    (convert_twitter_csv_to_json [c3rowA, c3rowB, c3rowC]
        (convert_twitter_csv_to_json [c3rowA, c3rowB] [])).map
      (fun c => c.primary_tweet_id) = ["r1", "r1"] ∧
    ¬ ((convert_twitter_csv_to_json [c3rowA, c3rowB, c3rowC]
        (convert_twitter_csv_to_json [c3rowA, c3rowB] [])).map
      (fun c => c.primary_tweet_id)).Nodup := by decide

/-- C1 amended: incremental reopening holds only when the batch also
carries the conversation's tail message as a root row (its parent
reference empty in the batch), so that the new message's parent chain
resolves to the stored tail.  For every settled single-conversation
store and fresh message `mr` replying to the tail row `tr`, ingestion
returns the conversation unsettled, with its history exactly one entry
longer and with `tail_id` updated to the new message's id. -/
theorem incremental_reopening_with_tail_row (c : Conv) (tr mr : Row)
    (hproc : c.processed = true)
    (htail : c.tail_id = tr.tweet_id)
    (htr_root : tr.in_response_to = "")
    (htr_mem : tr.tweet_id ∈ c.chat_history.map (fun m => m.tweet_id))
    (hmr_parent : mr.in_response_to = tr.tweet_id)
    (hmr_new : mr.tweet_id ∉ c.chat_history.map (fun m => m.tweet_id))
    (hmr_ne_tr : mr.tweet_id ≠ tr.tweet_id)
    (hmr_ne : mr.tweet_id ≠ "")
    (htr_ne : tr.tweet_id ≠ "")
    (htr_trim : trimRow tr = tr)
    (hmr_trim : trimRow mr = mr)
    (hsorted : c.chat_history.Pairwise msgLE)
    (hok : ∀ m ∈ c.chat_history, m.created_ok = true)
    (hmok : mr.created_ok = true)
    (hle : ∀ m ∈ c.chat_history, m.created_at ≤ mr.created_at) :
    ∃ c', convert_twitter_csv_to_json [tr, mr] [c] = [c'] ∧
      c'.processed = false ∧
      c'.chat_history.length = c.chat_history.length + 1 ∧
      c'.tail_id = mr.tweet_id := by
  have htr_ne_mr : tr.tweet_id ≠ mr.tweet_id := fun h => hmr_ne_tr h.symm
  have hclean : cleanRows [tr, mr] = [tr, mr] := by
    rw [cleanRows]
    rw [List.take_of_length_le (by norm_num)]
    rw [List.map_cons, List.map_cons, List.map_nil, htr_trim, hmr_trim]
    rw [dedupRows]
    rw [if_neg (List.not_mem_nil tr.tweet_id)]
    rw [dedupRows]
    rw [if_neg (fun h => hmr_ne_tr (List.mem_singleton.mp h))]
    rw [dedupRows]
    rw [List.filter_cons_of_pos (by simpa using htr_ne),
      List.filter_cons_of_pos (by simpa using hmr_ne)]
    rfl
  have hfcr_tr : find_conversation_root [tr, mr] 2 tr.tweet_id
      = some tr.tweet_id := by
    rw [find_conversation_root, if_neg htr_ne,
      List.find?_cons_of_pos _ (by simp)]
    show (if tr.in_response_to = "" then some tr.tweet_id
        else find_conversation_root [tr, mr] 1 tr.in_response_to)
      = some tr.tweet_id
    rw [if_pos htr_root]
  have hfcr_mr : fcr [tr, mr] mr.tweet_id = some tr.tweet_id := by
    rw [fcr]
    show find_conversation_root [tr, mr] 3 mr.tweet_id = some tr.tweet_id
    rw [find_conversation_root, if_neg hmr_ne,
      List.find?_cons_of_neg _ (by simpa using htr_ne_mr),
      List.find?_cons_of_pos _ (by simp)]
    show (if mr.in_response_to = "" then some mr.tweet_id
        else find_conversation_root [tr, mr] 2 mr.in_response_to)
      = some tr.tweet_id
    rw [hmr_parent, if_neg htr_ne]
    exact hfcr_tr
  have hload : loadStore [c] = [c] := by
    rw [loadStore]
    show upsertConv [] c = [c]
    rw [upsertConv]
    rw [if_neg (by simp)]
    rfl
  have hseen : allHistIds [c] = c.chat_history.map (fun m => m.tweet_id) := by
    rw [allHistIds_cons]
    show _ ++ allHistIds [] = _
    rw [histIds_nil_of_empty (fun _ h => absurd h (List.not_mem_nil _)),
      List.append_nil]
  have hany : ([c].any (fun c' => c'.tail_id = tr.tweet_id)) = true := by
    simp [htail]
  have hstep1 : [tr, mr].foldl
      (step1 [tr, mr] [c] (c.chat_history.map (fun m => m.tweet_id))) []
      = [] := by
    rw [List.foldl_cons]
    rw [step1, if_pos htr_mem]
    rw [List.foldl_cons]
    rw [step1, if_neg hmr_new]
    simp only [hfcr_mr]
    rw [if_pos hany]
    rfl
  have hfind : ([c].find? (fun c' => c'.tail_id = tr.tweet_id)) = some c :=
    List.find?_cons_of_pos _ (by simpa using htail)
  have hstep2 : [tr, mr].foldl (step2 [tr, mr])
      ⟨[c], [], c.chat_history.map (fun m => m.tweet_id)⟩
      = ⟨[{ c with
            chat_history := c.chat_history ++ [mkMsg mr]
            processed := false }], [],
          c.chat_history.map (fun m => m.tweet_id) ++ [mr.tweet_id]⟩ := by
    rw [List.foldl_cons]
    rw [step2, if_pos htr_mem]
    rw [List.foldl_cons]
    rw [step2, if_neg hmr_new]
    simp only [hfcr_mr, hfind]
    rw [if_neg hmr_new]
    rw [List.foldl_nil]
    show BuildState.mk (updateFirst _ _ [c]) [] _ = _
    rw [updateFirst]
    rw [if_pos (by simpa using htail)]
  have hall : ((c.chat_history ++ [mkMsg mr]).all
      (fun m => m.created_ok)) = true := by
    rw [List.all_append]
    refine (Bool.and_eq_true _ _).mpr ⟨?_, ?_⟩
    · rw [List.all_eq_true]
      exact fun m hm => by simpa using hok m hm
    · simp [mkMsg, hmok]
  have hsorted2 : (c.chat_history ++ [mkMsg mr]).Pairwise msgLE := by
    rw [List.pairwise_append]
    refine ⟨hsorted, List.pairwise_singleton _ _, ?_⟩
    intro a ha b hb
    rw [List.mem_singleton] at hb
    subst hb
    show a.created_at ≤ (mkMsg mr).created_at
    simpa [mkMsg] using hle a ha
  have hsort : sortHistory (c.chat_history ++ [mkMsg mr])
      = c.chat_history ++ [mkMsg mr] := by
    rw [sortHistory, if_pos hall]
    exact List.Sorted.insertionSort_eq hsorted2
  have hconv : convert_twitter_csv_to_json [tr, mr] [c]
      = [finalizeExisting [tr, mr]
          { c with
            chat_history := c.chat_history ++ [mkMsg mr]
            processed := false }] := by
    rw [convert_twitter_csv_to_json, hclean, hload, hseen, hstep1, hstep2]
    rfl
  refine ⟨_, hconv, ?_, ?_, ?_⟩
  · rfl
  · show (eraseCustKeys (sortHistory (c.chat_history ++ [mkMsg mr]))).length = _
    rw [hsort, eraseCustKeys, List.length_map, List.length_append]
    rfl
  · show (match (sortHistory (c.chat_history ++ [mkMsg mr])).getLast? with
      | some m => m.tweet_id
      | none => _) = mr.tweet_id
    rw [hsort, List.getLast?_concat]
    rfl

/-- Witness for the amended C1: the settled conversation `c1conv`, its
tail row repeated as a root, and the fresh reply `c1row`. -/
theorem incremental_reopening_with_tail_row_witness :
    (c1conv.processed = true ∧
      c1conv.tail_id = c1tailRow.tweet_id ∧
      c1tailRow.in_response_to = "" ∧
      c1row.in_response_to = c1tailRow.tweet_id) ∧
    ∃ c', convert_twitter_csv_to_json [c1tailRow, c1row] [c1conv] = [c'] ∧
      c'.processed = false ∧
      c'.chat_history.length = c1conv.chat_history.length + 1 ∧
      c'.tail_id = c1row.tweet_id :=
  ⟨⟨rfl, rfl, rfl, rfl⟩,
    incremental_reopening_with_tail_row c1conv c1tailRow c1row
      (by decide) (by decide) (by decide) (by decide) (by decide) (by decide)
      (by decide) (by decide) (by decide) (by decide) (by decide) (by decide)
      (by decide) (by decide) (by decide)⟩

/-- C2 amended: a message whose parent chain cannot be resolved within
the cleaned batch (`find_conversation_root` returns `None`) does not
fail reconstruction — the run completes — but the message is silently
dropped rather than degraded to a root: if its id is not already
stored, it appears in no conversation's chat history of the output
store. -/
theorem unresolvable_parent_dropped (rawRows : List Row)
    (rawStore : List Conv) (x : String)
    (hf : fcr (cleanRows rawRows) x = none)
    (hs : x ∉ allHistIds rawStore) :
    x ∉ allHistIds (convert_twitter_csv_to_json rawRows rawStore) := by
  intro h
  rcases output_hist_ids h with h1 | ⟨r, _, hx, hne⟩
  · exact hs h1
  · exact hne (hx ▸ hf)

/-- Witness for the amended C2 at the concrete dropped message. -/
theorem unresolvable_parent_dropped_witness :
    (fcr (cleanRows [c2row]) "m1" = none ∧ "m1" ∉ allHistIds []) ∧
    "m1" ∉ allHistIds (convert_twitter_csv_to_json [c2row] []) :=
  ⟨⟨by decide, by decide⟩,
    unresolvable_parent_dropped [c2row] [] "m1" (by decide) (by decide)⟩

/-- C9: ingestion slices the frame to its first 4000 rows
(`df = df[:4000]`), so a message id that does not occur among the first
4000 rows' (stripped) tweet ids and is not already stored never enters
any conversation's chat history — rows beyond 4000 are silently
ignored. -/
theorem input_limit_4000 (rawRows : List Row) (rawStore : List Conv)
    (x : String)
    (h4000 : x ∉ (rawRows.take 4000).map (fun r => pyStrip r.tweet_id))
    (hs : x ∉ allHistIds rawStore) :
    x ∉ allHistIds (convert_twitter_csv_to_json rawRows rawStore) := by
  intro h
  rcases output_hist_ids h with h1 | ⟨r, hr, hx, _⟩
  · exact hs h1
  · exact h4000 (hx ▸ mem_cleanRows hr)

/-- Witness for C9: a fresh id absent from the first 4000 rows never
appears in the output. -/
theorem input_limit_4000_witness :
    ("m9" ∉ ([c3rowA, c3rowB].take 4000).map (fun r => pyStrip r.tweet_id) ∧
      "m9" ∉ allHistIds [c1conv]) ∧
    "m9" ∉ allHistIds (convert_twitter_csv_to_json [c3rowA, c3rowB] [c1conv]) :=
  ⟨⟨by decide, by decide⟩,
    input_limit_4000 [c3rowA, c3rowB] [c1conv] "m9" (by decide) (by decide)⟩

/-- C5: idempotent ingestion — running `convert_twitter_csv_to_json` on
a batch from an empty store and then running it again on the same batch
against the resulting store returns the stored conversations unchanged:
same conversation count and identical content (already-seen message ids
are skipped, no new conversations open, and re-finalising a finalised
conversation is the identity). -/
theorem idempotent_ingestion (rawRows : List Row) :
    convert_twitter_csv_to_json rawRows (convert_twitter_csv_to_json rawRows [])
      = convert_twitter_csv_to_json rawRows [] := by
  obtain ⟨nwF, hnwF⟩ := foldl_step2_nil (cleanRows rawRows) (cleanRows rawRows)
    ((cleanRows rawRows).foldl (step1 (cleanRows rawRows) [] []) []) []
  have hrun1 : convert_twitter_csv_to_json rawRows []
      = nwF.map (finalizeNew (cleanRows rawRows)) := by
    show ((cleanRows rawRows).foldl (step2 (cleanRows rawRows))
        ⟨[], (cleanRows rawRows).foldl (step1 (cleanRows rawRows) [] []) [],
          []⟩).ex.map (finalizeExisting (cleanRows rawRows))
      ++ ((cleanRows rawRows).foldl (step2 (cleanRows rawRows))
        ⟨[], (cleanRows rawRows).foldl (step1 (cleanRows rawRows) [] []) [],
          []⟩).nw.map (finalizeNew (cleanRows rawRows))
      = nwF.map (finalizeNew (cleanRows rawRows))
    rw [hnwF]
    rfl
  have hnw0_ids : allHistIds
      ((cleanRows rawRows).foldl (step1 (cleanRows rawRows) [] []) []) = [] := by
    refine histIds_nil_of_empty (fun c hc => ?_)
    rcases mem_foldl_step1 _ _ hc with hc1 | hc1
    · exact absurd hc1 (List.not_mem_nil c)
    · exact hc1
  have hcov_nwF : ∀ r ∈ cleanRows rawRows,
      fcr (cleanRows rawRows) r.tweet_id ≠ none →
      r.tweet_id ∈ allHistIds nwF := by
    intro r hr hne
    have hres := coverage_phase2 (cleanRows rawRows)
      (cleanRows rawRows)
      ((cleanRows rawRows).foldl (step1 (cleanRows rawRows) [] []) [])
      (fun R r' h1 h2 => key_coverage_phase1 (cleanRows rawRows) [] r' R h1 h2)
      (fun r' _ => by rw [hnw0_ids]; exact List.not_mem_nil _)
      (cleanRows_ids_nodup rawRows)
      (fun r' h => h) r hr hne
    rw [hnwF] at hres
    exact hres
  have hcov_S : ∀ r ∈ cleanRows rawRows,
      fcr (cleanRows rawRows) r.tweet_id ≠ none →
      r.tweet_id ∈ allHistIds
        (nwF.map (finalizeNew (cleanRows rawRows))) := fun r hr hne =>
    (allHistIds_map_finalizeNew_perm (cleanRows rawRows) nwF).mem_iff.mpr
      (hcov_nwF r hr hne)
  have hkeys_nwF : (nwF.map (fun c => c.primary_tweet_id)).Nodup := by
    have h1 := foldl_step2_nw_keys (cleanRows rawRows) (cleanRows rawRows)
      ⟨[], (cleanRows rawRows).foldl (step1 (cleanRows rawRows) [] []) [], []⟩
    rw [hnwF] at h1
    rw [h1]
    exact foldl_step1_keys_nodup (cleanRows rawRows) [] (by simp)
  have hkeys_S : ((nwF.map (finalizeNew (cleanRows rawRows))).map
      (fun c => c.primary_tweet_id)).Nodup := by
    rw [List.map_map]
    have hk : nwF.map ((fun c => c.primary_tweet_id)
        ∘ finalizeNew (cleanRows rawRows))
        = nwF.map (fun c => c.primary_tweet_id) :=
      List.map_congr_left (fun c _ => rfl)
    rw [hk]
    exact hkeys_nwF
  have hload : loadStore (nwF.map (finalizeNew (cleanRows rawRows)))
      = nwF.map (finalizeNew (cleanRows rawRows)) := loadStore_eq_self hkeys_S
  have hphase1 : (cleanRows rawRows).foldl
      (step1 (cleanRows rawRows)
        (loadStore (nwF.map (finalizeNew (cleanRows rawRows))))
        (allHistIds (nwF.map (finalizeNew (cleanRows rawRows))))) []
      = [] := by
    refine foldl_fixed_point _ [] _ (fun r hr => ?_)
    by_cases hmem : r.tweet_id ∈ allHistIds
        (nwF.map (finalizeNew (cleanRows rawRows)))
    · rw [step1, if_pos hmem]
    · have hf : fcr (cleanRows rawRows) r.tweet_id = none := by
        by_contra hne
        exact hmem (hcov_S r hr hne)
      rw [step1, if_neg hmem]
      simp only [hf]
  have hphase2 : (cleanRows rawRows).foldl (step2 (cleanRows rawRows))
      ⟨nwF.map (finalizeNew (cleanRows rawRows)), [],
        allHistIds (nwF.map (finalizeNew (cleanRows rawRows)))⟩
      = ⟨nwF.map (finalizeNew (cleanRows rawRows)), [],
        allHistIds (nwF.map (finalizeNew (cleanRows rawRows)))⟩ := by
    refine foldl_fixed_point _ _ _ (fun r hr => ?_)
    by_cases hmem : r.tweet_id ∈ allHistIds
        (nwF.map (finalizeNew (cleanRows rawRows)))
    · rw [step2, if_pos hmem]
    · have hf : fcr (cleanRows rawRows) r.tweet_id = none := by
        by_contra hne
        exact hmem (hcov_S r hr hne)
      rw [step2, if_neg hmem]
      simp only [hf]
  have hfinal : (nwF.map (finalizeNew (cleanRows rawRows))).map
      (finalizeExisting (cleanRows rawRows))
      = nwF.map (finalizeNew (cleanRows rawRows)) := by
    rw [List.map_map]
    exact List.map_congr_left
      (fun c _ => finalizeExisting_finalizeNew (cleanRows rawRows) c)
  rw [hrun1]
  show ((cleanRows rawRows).foldl (step2 (cleanRows rawRows))
      ⟨loadStore (nwF.map (finalizeNew (cleanRows rawRows))),
        (cleanRows rawRows).foldl
          (step1 (cleanRows rawRows)
            (loadStore (nwF.map (finalizeNew (cleanRows rawRows))))
            (allHistIds (nwF.map (finalizeNew (cleanRows rawRows))))) [],
        allHistIds (nwF.map (finalizeNew (cleanRows rawRows)))⟩).ex.map
          (finalizeExisting (cleanRows rawRows))
    ++ ((cleanRows rawRows).foldl (step2 (cleanRows rawRows))
      ⟨loadStore (nwF.map (finalizeNew (cleanRows rawRows))),
        (cleanRows rawRows).foldl
          (step1 (cleanRows rawRows)
            (loadStore (nwF.map (finalizeNew (cleanRows rawRows))))
            (allHistIds (nwF.map (finalizeNew (cleanRows rawRows))))) [],
        allHistIds (nwF.map (finalizeNew (cleanRows rawRows)))⟩).nw.map
          (finalizeNew (cleanRows rawRows))
    = nwF.map (finalizeNew (cleanRows rawRows))
  rw [hphase1, hload, hphase2]
  show (nwF.map (finalizeNew (cleanRows rawRows))).map
      (finalizeExisting (cleanRows rawRows)) ++ []
    = nwF.map (finalizeNew (cleanRows rawRows))
  rw [List.append_nil, hfinal]

/-- C4: global message deduplication — if the input store's chat
histories contain no duplicated message id (across conversations and
within each history), then after any ingestion run the output store's
chat histories still contain no duplicated id: each message id sits in
at most one conversation's history, at most once, and duplicate rows or
re-sent ids are dropped rather than attached a second time. -/
theorem global_message_dedup (rawRows : List Row) (rawStore : List Conv)
    (h : (allHistIds rawStore).Nodup) :
    (allHistIds (convert_twitter_csv_to_json rawRows rawStore)).Nodup := by
  rw [convert_twitter_csv_to_json]
  have hnw0 : allHistIds ((cleanRows rawRows).foldl
      (step1 (cleanRows rawRows) (loadStore rawStore)
        (allHistIds rawStore)) []) = [] := by
    apply histIds_nil_of_empty
    intro c hc
    rcases mem_foldl_step1 _ _ hc with hc1 | hc1
    · exact absurd hc1 (List.not_mem_nil c)
    · exact hc1
  have hinv0 : DedupInv
      ⟨loadStore rawStore,
        (cleanRows rawRows).foldl
          (step1 (cleanRows rawRows) (loadStore rawStore)
            (allHistIds rawStore)) [],
        allHistIds rawStore⟩ (cleanRows rawRows) := by
    refine ⟨?_, ?_, ?_, cleanRows_ids_nodup rawRows⟩
    · show (allHistIds (loadStore rawStore) ++ _).Nodup
      rw [hnw0, List.append_nil]
      exact nodup_loadStore_ids h
    · intro x hx
      obtain ⟨c, hc, hcx⟩ := mem_allHistIds.mp hx
      exact mem_allHistIds.mpr ⟨c, mem_loadStore hc, hcx⟩
    · intro r _
      show r.tweet_id ∉ allHistIds _
      rw [hnw0]
      exact List.not_mem_nil _
  have hinv := foldl_dedupInv (cleanRows rawRows)
    (cleanRows rawRows) _ hinv0
  rw [allHistIds, List.flatMap_append]
  exact ((allHistIds_map_finalizeExisting_perm (cleanRows rawRows) _).append
    (allHistIds_map_finalizeNew_perm (cleanRows rawRows) _)).nodup_iff.mpr hinv.1

/-- Witness for C4 at a concrete duplicate-free store and a batch that
repeats already-stored ids. -/
theorem global_message_dedup_witness :
    (allHistIds c4store).Nodup ∧
    (allHistIds
      (convert_twitter_csv_to_json [c3rowA, c3rowB, c3rowC] c4store)).Nodup :=
  ⟨by decide, global_message_dedup [c3rowA, c3rowB, c3rowC] c4store (by decide)⟩

/-- C6: `calculate_customer_patterns` maps each non-empty customer id
occurring in the input to the most frequent sentiment and the most
frequent support category of that customer's conversations (defaults
`Neutral` / `Technical Issue (Simple / Minor)` for untagged
conversations), where "most frequent" is maximal count with ties broken
by earliest first occurrence in input order; ids with no conversations
and the empty id are absent from the result. -/
theorem pattern_aggregation_spec (convs : List PConv) (cid : String)
    (hcid : cid ≠ "") :
    (convs.filter (fun c => c.customer_id = cid) = [] →
      (calculate_customer_patterns convs).find? (fun p => p.1 = cid) = none) ∧
    (convs.filter (fun c => c.customer_id = cid) ≠ [] →
      ∃ s t, (calculate_customer_patterns convs).find? (fun p => p.1 = cid)
          = some (cid, s, t) ∧
        SpecDominant ((convs.filter (fun c => c.customer_id = cid)).map
          (fun c => c.sentiment.getD "Neutral")) s ∧
        SpecDominant ((convs.filter (fun c => c.customer_id = cid)).map
          (fun c => c.nature_of_support.getD
            "Technical Issue (Simple / Minor)")) t) ∧
    (calculate_customer_patterns convs).find? (fun p => p.1 = "") = none := by
  have hgrp : (groupByCustomer convs).find? (fun p => p.1 = cid)
      = if convs.filter (fun c => c.customer_id = cid) = []
        then none
        else some (cid, convs.filter (fun c => c.customer_id = cid)) := by
    rw [groupByCustomer, gfold_find cid hcid convs []]
    rfl
  have hmap : (calculate_customer_patterns convs).find? (fun p => p.1 = cid)
      = ((groupByCustomer convs).find? (fun p => p.1 = cid)).map
          (fun g =>
            (g.1,
              (most_common1 (g.2.map (fun c => c.sentiment.getD "Neutral"))).getD
                "Neutral",
              (most_common1 (g.2.map (fun c => c.nature_of_support.getD
                "Technical Issue (Simple / Minor)"))).getD
                "Technical Issue (Simple / Minor)")) := by
    rw [calculate_customer_patterns]
    exact find?_map_eq _ _ _ (fun g => rfl) (groupByCustomer convs)
  refine ⟨?_, ?_, ?_⟩
  · intro hempty
    rw [hmap, hgrp, if_pos hempty]
    rfl
  · intro hne
    rw [hmap, hgrp, if_neg hne]
    have hs := most_common1_dominant
      ((convs.filter (fun c => c.customer_id = cid)).map
        (fun c => c.sentiment.getD "Neutral"))
      (by simpa using hne)
    have ht := most_common1_dominant
      ((convs.filter (fun c => c.customer_id = cid)).map
        (fun c => c.nature_of_support.getD "Technical Issue (Simple / Minor)"))
      (by simpa using hne)
    obtain ⟨s, hsval, hsdom⟩ := hs
    obtain ⟨t, htval, htdom⟩ := ht
    exact ⟨s, t, by rw [Option.map_some']; rw [hsval, htval]; rfl, hsdom, htdom⟩
  · rw [List.find?_eq_none]
    intro g hg
    rw [calculate_customer_patterns, List.mem_map] at hg
    obtain ⟨g0, hg0, hgg⟩ := hg
    have hk := groupByCustomer_keys_ne convs g0 hg0
    rw [← hgg]
    simpa using hk

/-- Witness for C6: customer `x` with sentiments
`[Negative, Negative, Positive]` — the aggregator reports a dominant
sentiment, and `Negative` is the dominant value of that list. -/
theorem pattern_aggregation_spec_witness :
    (("x" : String) ≠ "" ∧
      c6convs.filter (fun c => c.customer_id = "x") ≠ []) ∧
    (∃ s t, (calculate_customer_patterns c6convs).find? (fun p => p.1 = "x")
        = some ("x", s, t) ∧
      SpecDominant ((c6convs.filter (fun c => c.customer_id = "x")).map
        (fun c => c.sentiment.getD "Neutral")) s ∧
      SpecDominant ((c6convs.filter (fun c => c.customer_id = "x")).map
        (fun c => c.nature_of_support.getD
          "Technical Issue (Simple / Minor)")) t) ∧
    SpecDominant ["Negative", "Negative", "Positive"] "Negative" :=
  ⟨⟨by decide, by decide⟩,
    (pattern_aggregation_spec c6convs "x" (by decide)).2.1 (by decide),
    by decide⟩

/-- C3 amended: the ingestion stage itself can emit two conversation
records with the same root id (see `merge_by_key_counterexample`), but
the tagging-stage persistence is a genuine merge-by-key upsert: for
every existing tagged store and every batch of newly tagged
conversations, the combined store it writes never contains two records
with the same `primary_tweet_id`. -/
theorem tagged_store_upsert_no_duplicates (existing unprocessed : List TConv) :
    ((mergeTagged existing unprocessed).map
      (fun c => c.primary_tweet_id)).Nodup := by
  rw [mergeTagged]
  refine foldl_upsertTConv_keys _ unprocessed _ ?_
  have h := foldl_upsertTConv_keys (fun c => c) existing [] (by simp)
  exact h

/-- C8: every unsettled conversation whose resolution status is
`waiting_for_company` yields exactly one recommendation, and (the
collaborator being unreachable — `determine_next_best_action_llm`
returns before ever invoking it) that record is the fixed default:
channel `twitter_dm_reply`, the generic acknowledgment message, and
issue status `pending_customer_reply`; no eligible conversation is
dropped. -/
theorem nba_default_recommendation (now : String) (store : List TConv) :
    ((process_conversations now store).1).length
        = (eligibleForNBA store).length ∧
    ∀ i (h1 : i < ((process_conversations now store).1).length)
      (h2 : i < (eligibleForNBA store).length),
      (((process_conversations now store).1).get ⟨i, h1⟩).customer_id
          = ((eligibleForNBA store).get ⟨i, h2⟩).customer_id ∧
      (((process_conversations now store).1).get ⟨i, h1⟩).channel
          = "twitter_dm_reply" ∧
      (((process_conversations now store).1).get ⟨i, h1⟩).message
          = "Thank you for reaching out. We\x27re here to help resolve your issue." ∧
      (((process_conversations now store).1).get ⟨i, h1⟩).issue_status
          = "pending_customer_reply" := by
  have hkey : (process_conversations now store).1
      = (eligibleForNBA store).map
          (fun c => determine_next_best_action_llm now (extract_features c)) := by
    simp only [process_conversations, eligibleForNBA]
    induction store with
    | nil => rfl
    | cons c cs ih =>
      by_cases hp : c.processed <;>
        by_cases hr : c.resolution_status = some "waiting_for_company" <;>
          simp [hp, hr, extract_features, ih]
  constructor
  · rw [hkey, List.length_map]
  · intro i h1 h2
    have hget := List.get_of_eq hkey ⟨i, h1⟩
    rw [List.get_map] at hget
    rw [hget]
    exact ⟨rfl, rfl, rfl, rfl⟩

/-- C10: with a non-empty history and a failing resolution collaborator,
`determine_resolution_status_llm` returns `None` (not one of the three
labels), tagging therefore stores a null resolution status and
`resolved = False`, and such a conversation never passes the
recommendation dispatcher's `waiting_for_company` filter; with an empty
history the function returns `waiting_for_company` without consulting
the collaborator. -/
theorem degraded_resolution_never_eligible (api : Option String)
    (o : Oracles) (convs : List Conv) (c : Conv)
    (hc : c ∈ convs) (hp : c.processed = false)
    (hne : c.chat_history ≠ []) (hfr : o.fr c = .error ()) :
    determine_resolution_status_llm (o.fr c) c.chat_history = none ∧
    (∃ t ∈ tag_conversations api o convs,
      t.toConv = c ∧ t.resolution_status = none ∧ t.resolved = false ∧
      (extract_features t).resolution_status ≠ some "waiting_for_company" ∧
      ∀ store : List TConv, t ∉ eligibleForNBA store) ∧
    (∀ collab : Except Unit String,
      determine_resolution_status_llm collab [] = some "waiting_for_company") := by
  have hdet : determine_resolution_status_llm (o.fr c) c.chat_history = none := by
    rw [determine_resolution_status_llm.eq_def, hfr]
    simp [hne]
  refine ⟨hdet, ?_, fun collab => rfl⟩
  obtain ⟨t, htmem, htc, _, _, hres, hresolved⟩ := tag_mem api o hc hp
  refine ⟨t, htmem, htc, ?_, ?_, ?_, ?_⟩
  · rw [hres, hdet]
  · rw [hresolved, hdet]; rfl
  · rw [extract_features]
    simp only [hres, hdet]
    exact fun h => Option.noConfusion h
  · intro store hmem
    rw [eligibleForNBA, List.mem_filter] at hmem
    have := hmem.2
    rw [hres, hdet] at this
    simp at this

/-- C7: when the classification collaborator calls raise, the
conversation is still tagged with the default category
`Technical Issue (Simple / Minor)` and default sentiment `Neutral`, its
resolution stays unresolved (`resolved = False`), and the tagging run
continues: every unprocessed conversation still produces a tagged
record. -/
theorem enrichment_defaults_on_failure (key : String) (o : Oracles)
    (convs : List Conv) (c : Conv)
    (hc : c ∈ convs) (hp : c.processed = false)
    (hfc : o.fc c = .error ()) (hfs : o.fs c = .error ())
    (hfr : o.fr c = .error ()) :
    (tag_conversations (some key) o convs).length
        = (convs.filter (fun c => !c.processed)).length ∧
    ∃ t ∈ tag_conversations (some key) o convs,
      t.toConv = c ∧
      t.nature_of_support = "Technical Issue (Simple / Minor)" ∧
      t.sentiment = "Neutral" ∧
      t.resolved = false := by
  refine ⟨tag_conversations_length _ _ _, ?_⟩
  obtain ⟨t, htmem, htc, hnat, hsent, hres, hresolved⟩ :=
    tag_mem (some key) o hc hp
  refine ⟨t, htmem, htc, ?_, ?_, ?_⟩
  · rw [hnat, classify_support_nature_llm.eq_def, hfc]
  · rw [hsent, analyze_sentiment_llm.eq_def, hfs]
  · rw [hresolved, determine_resolution_status_llm.eq_def, hfr]
    by_cases hne : c.chat_history.isEmpty <;> simp [hne]

/-- Witness for C10 at a concrete conversation and failing
collaborators. -/
theorem degraded_resolution_never_eligible_witness :
    (wconv ∈ [wconv] ∧ wconv.processed = false ∧
      wconv.chat_history ≠ [] ∧ failingOracles.fr wconv = .error ()) ∧
    (determine_resolution_status_llm (failingOracles.fr wconv)
        wconv.chat_history = none ∧
      (∃ t ∈ tag_conversations none failingOracles [wconv],
        t.toConv = wconv ∧ t.resolution_status = none ∧ t.resolved = false ∧
        (extract_features t).resolution_status ≠ some "waiting_for_company" ∧
        ∀ store : List TConv, t ∉ eligibleForNBA store) ∧
      (∀ collab : Except Unit String,
        determine_resolution_status_llm collab [] = some "waiting_for_company")) :=
  ⟨⟨List.mem_singleton.mpr rfl, rfl, by simp [wconv], rfl⟩,
    degraded_resolution_never_eligible none failingOracles [wconv] wconv
      (List.mem_singleton.mpr rfl) rfl (by simp [wconv]) rfl⟩

/-- Witness for C7 at a concrete conversation and failing
collaborators. -/
theorem enrichment_defaults_on_failure_witness :
    (wconv ∈ [wconv] ∧ wconv.processed = false ∧
      failingOracles.fc wconv = .error () ∧
      failingOracles.fs wconv = .error () ∧
      failingOracles.fr wconv = .error ()) ∧
    ((tag_conversations (some "k") failingOracles [wconv]).length
        = ([wconv].filter (fun c => !c.processed)).length ∧
      ∃ t ∈ tag_conversations (some "k") failingOracles [wconv],
        t.toConv = wconv ∧
        t.nature_of_support = "Technical Issue (Simple / Minor)" ∧
        t.sentiment = "Neutral" ∧
        t.resolved = false) :=
  ⟨⟨List.mem_singleton.mpr rfl, rfl, rfl, rfl, rfl⟩,
    enrichment_defaults_on_failure "k" failingOracles [wconv] wconv
      (List.mem_singleton.mpr rfl) rfl rfl rfl rfl⟩

end NBAEngine
